import Mathlib

/-
  Verification development for the IIVD ingestion layer.

  This file gives a shallow embedding of:
  * `parseAssistantMessage` (src/core/assistant-message/parse-assistant-message.ts),
    the incremental tool-use parser, as a character-by-character fold over the
    input buffer (strings are modelled as `List Char`);
  * `AnthropicHandler.getModel` and the prompt-caching message annotation of
    `AnthropicHandler.createMessage` (src/api/providers/anthropic.ts);
  * the non-streaming fallback of `OpenAiHandler.createMessage` and
    `processUsageMetrics` (src/api/providers/openai.ts).

  JavaScript string primitives (`endsWith`, `slice`, `indexOf`, `lastIndexOf`,
  `trim`, `||`, `??`) are modelled explicitly below, with the same edge-case
  behaviour as in JS wherever the source can reach it.
-/

namespace IIVD

/-! ## JavaScript string preliminaries, over `List Char` -/

/-- Whitespace predicate used by the model of `String.prototype.trim`.
`Char.isWhitespace` covers space, tab, CR and LF, which agrees with JS `trim`
on all characters the parser's callers can produce here. -/
def wsp (c : Char) : Bool := c.isWhitespace

/-- Model of `s.trim()`: remove leading and trailing whitespace. -/
def trimChars (l : List Char) : List Char :=
  ((l.dropWhile wsp).reverse.dropWhile wsp).reverse

/-- Model of `s.slice(0, -n)` for `n ≥ 1`: drop the last `n` characters
(yielding `""` when `n ≥ s.length`). -/
def dropLastN (n : Nat) (l : List Char) : List Char := l.take (l.length - n)

/-- The opening delimiter `<name>`. -/
def openTag (n : List Char) : List Char := '<' :: (n ++ ['>'])

/-- The closing delimiter `</name>`. -/
def closeTag (n : List Char) : List Char := '<' :: '/' :: (n ++ ['>'])

/-- First index at which `pat` occurs as a contiguous sublist, if any. -/
def idxOfSub (pat : List Char) : List Char → Option Nat
  | [] => if pat.isPrefixOf ([] : List Char) then some 0 else none
  | a :: t => if pat.isPrefixOf (a :: t) then some 0 else (idxOfSub pat t).map (· + 1)

/-- Last index at which `pat` occurs as a contiguous sublist, if any. -/
def lastIdxOfSub (pat : List Char) : List Char → Option Nat
  | [] => if pat.isPrefixOf ([] : List Char) then some 0 else none
  | a :: t =>
    match lastIdxOfSub pat t with
    | some n => some (n + 1)
    | none => if pat.isPrefixOf (a :: t) then some 0 else none

/-- Model of `s.indexOf(pat)` (returns `-1` when absent). -/
def jsIndexOf (l pat : List Char) : Int :=
  match idxOfSub pat l with
  | some n => (n : Int)
  | none => -1

/-- Model of `s.lastIndexOf(pat)` (returns `-1` when absent). -/
def jsLastIndexOf (l pat : List Char) : Int :=
  match lastIdxOfSub pat l with
  | some n => (n : Int)
  | none => -1

/-- Model of `s.slice(start, end)` with JS index semantics
(negative indices count from the end, everything is clamped). -/
def jsSliceII (l : List Char) (s e : Int) : List Char :=
  let n : Int := l.length
  let s' := (if s < 0 then max (n + s) 0 else min s n).toNat
  let e' := (if e < 0 then max (n + e) 0 else min e n).toNat
  (l.take e').drop s'

/-! ## Parser data model (ContentBlock) -/

/-- A narrative text block (`TextContent` in the source).  `pending` models the
source's `partial` field: `true` while the closing delimiter has not been seen. -/
structure TextContent where
  content : List Char
  pending : Bool
deriving DecidableEq, Repr

/-- A tool-invocation block (`ToolUse` in the source).  Parameters are an
ordered association list; assignment replaces in place (JS object semantics). -/
structure ToolUse where
  name : List Char
  params : List (List Char × List Char)
  pending : Bool
deriving DecidableEq, Repr

/-- `AssistantMessageContent`: a text block or a tool-use block. -/
inductive ContentBlock where
  | text : TextContent → ContentBlock
  | tool : ToolUse → ContentBlock
deriving DecidableEq, Repr

/-- The `partial` flag of a block. -/
def ContentBlock.pending : ContentBlock → Bool
  | .text t => t.pending
  | .tool t => t.pending

/-- JS object assignment `params[name] = value`: replace the binding in place
if present (keeping its position), append otherwise. -/
def setParam : List (List Char × List Char) → List Char → List Char →
    List (List Char × List Char)
  | [], k, v => [(k, v)]
  | (k', v') :: rest, k, v =>
    if k' = k then (k, v) :: rest else (k', v') :: setParam rest k v

/-- The tool name that receives the special `content`-parameter treatment
(`write_to_file` in the source). -/
def writeToFileName : List Char := "write_to_file".data

/-- The special parameter name (`content` in the source). -/
def contentParamName : List Char := "content".data

/-! ## The parser state machine

The mutable locals of `parseAssistantMessage` become one state record; one
iteration of its `for` loop becomes `stepChar`; the post-loop flushing becomes
`finalizeState`.  The tool and parameter vocabularies (`toolUseNames`,
`toolParamNames`) are imported by the source from a module that is not part of
the extracted sources, so they are passed as parameters here. -/

structure ParserState where
  contentBlocks : List ContentBlock
  currentTextContent : Option TextContent
  currentTextContentStartIndex : Nat
  currentToolUse : Option ToolUse
  currentToolUseStartIndex : Nat
  currentParamName : Option (List Char)
  currentParamValueStartIndex : Nat
  accumulator : List Char
deriving DecidableEq, Repr

/-- The state at the top of the loop (all locals at their initial values). -/
def startState : ParserState :=
  ⟨[], none, 0, none, 0, none, 0, []⟩

/-- One iteration of the source's `for` loop, for the character `c` at index
`accumulator.length`. -/
def stepChar (toolNames paramNames : List (List Char)) (st : ParserState)
    (c : Char) : ParserState :=
  let i := st.accumulator.length
  let acc := st.accumulator ++ [c]
  match st.currentToolUse with
  | some tu =>
    match st.currentParamName with
    | some pn =>
      -- inside a parameter: hunt for its closing tag
      let currentParamValue := acc.drop st.currentParamValueStartIndex
      let paramClosingTag := closeTag pn
      if paramClosingTag.isSuffixOf currentParamValue then
        { st with
          accumulator := acc
          currentToolUse := some { tu with
            params := setParam tu.params pn
              (trimChars (dropLastN paramClosingTag.length currentParamValue)) }
          currentParamName := none }
      else
        { st with accumulator := acc }
    | none =>
      -- inside a tool: closing tag, else a new parameter, plus the
      -- write_to_file special case for embedded </content>
      let currentToolValue := acc.drop st.currentToolUseStartIndex
      let toolUseClosingTag := closeTag tu.name
      if toolUseClosingTag.isSuffixOf currentToolValue then
        { st with
          accumulator := acc
          contentBlocks := st.contentBlocks ++ [ContentBlock.tool { tu with pending := false }]
          currentToolUse := none }
      else
        let paramHit := paramNames.find? (fun n => (openTag n).isSuffixOf acc)
        let st1 :=
          match paramHit with
          | some pn =>
            { st with
              accumulator := acc
              currentParamName := some pn
              currentParamValueStartIndex := acc.length }
          | none => { st with accumulator := acc }
        let tu' :=
          if tu.name = writeToFileName ∧ (closeTag contentParamName).isSuffixOf acc then
            let toolContent := acc.drop st.currentToolUseStartIndex
            let contentStartIndex : Int :=
              jsIndexOf toolContent (openTag contentParamName) +
                ((openTag contentParamName).length : Int)
            let contentEndIndex : Int := jsLastIndexOf toolContent (closeTag contentParamName)
            if contentStartIndex ≠ -1 ∧ contentEndIndex ≠ -1 ∧
                contentEndIndex > contentStartIndex then
              { tu with
                params := setParam tu.params contentParamName
                  (trimChars (jsSliceII toolContent contentStartIndex contentEndIndex)) }
            else tu
          else tu
        { st1 with currentToolUse := some tu' }
  | none =>
    -- outside any tool: hunt for a tool opening tag, else accumulate text
    let toolHit := toolNames.find? (fun n => (openTag n).isSuffixOf acc)
    match toolHit with
    | some tn =>
      let blocks' :=
        match st.currentTextContent with
        | some t =>
          st.contentBlocks ++ [ContentBlock.text
            { content := trimChars (dropLastN ((openTag tn).length - 1) t.content)
              pending := false }]
        | none => st.contentBlocks
      { st with
        accumulator := acc
        contentBlocks := blocks'
        currentTextContent := none
        currentToolUse := some { name := tn, params := [], pending := true }
        currentToolUseStartIndex := acc.length }
    | none =>
      let s0 :=
        match st.currentTextContent with
        | none => i
        | some _ => st.currentTextContentStartIndex
      { st with
        accumulator := acc
        currentTextContentStartIndex := s0
        currentTextContent := some { content := trimChars (acc.drop s0), pending := true } }

/-- The flushing after the loop: an open tool (with its open parameter, if
any, assigned the trailing text) and then an open text span are appended. -/
def finalizeState (st : ParserState) : List ContentBlock :=
  let blocks1 :=
    match st.currentToolUse with
    | some tu =>
      let tu' :=
        match st.currentParamName with
        | some pn =>
          { tu with params := (setParam tu.params pn
              (trimChars (st.accumulator.drop st.currentParamValueStartIndex))) }
        | none => tu
      st.contentBlocks ++ [ContentBlock.tool tu']
    | none => st.contentBlocks
  match st.currentTextContent with
  | some t => blocks1 ++ [ContentBlock.text t]
  | none => blocks1

/-- `parseAssistantMessage`, as a fold of `stepChar` over the buffer followed
by `finalizeState`. -/
def parseAssistantMessage (toolNames paramNames : List (List Char))
    (assistantMessage : List Char) : List ContentBlock :=
  finalizeState (assistantMessage.foldl (stepChar toolNames paramNames) startState)

/-! ## Well-formed vocabularies

The tool and parameter vocabularies are closed, externally curated
enumerations; the design note in the specification makes their
unambiguity a caller obligation.  `goodName` captures the curation used
here: names are nonempty and consist of plain characters (no `<`, `>`, `/`
and no whitespace). -/

/-- A character that can appear in a tag name. -/
def plainChar (c : Char) : Prop := c ≠ '<' ∧ c ≠ '>' ∧ c ≠ '/' ∧ wsp c = false

instance (c : Char) : Decidable (plainChar c) := by
  unfold plainChar; infer_instance

/-- A well-formed tag name. -/
def goodName (n : List Char) : Prop := n ≠ [] ∧ ∀ c ∈ n, plainChar c

instance (n : List Char) : Decidable (goodName n) := by
  unfold goodName; infer_instance

/-- A well-formed vocabulary: every name in it is well formed. -/
def goodVocab (v : List (List Char)) : Prop := ∀ n ∈ v, goodName n

instance (v : List (List Char)) : Decidable (goodVocab v) := by
  unfold goodVocab; infer_instance

/-! ## The `afterLast` view of tag matching

For a name `n` free of `<`, the buffer ends with the delimiter `<n>` exactly
when it ends with `>` and the segment after the last `<` of the rest is `n`.
This turns every `endsWith` delimiter test of the parser into a computation of
`afterLast '<'`. -/

/-- The segment strictly after the last occurrence of `c`, if `c` occurs. -/
def afterLast (c : Char) : List Char → Option (List Char)
  | [] => none
  | a :: t =>
    match afterLast c t with
    | some r => some r
    | none => if a = c then some t else none

/-! ## Invariants of the state machine

The machine keeps: every already-emitted block is closed; any open tool or
text span is still pending; an open tool and an open text span never coexist. -/

def StInv (st : ParserState) : Prop :=
  (∀ b ∈ st.contentBlocks, b.pending = false) ∧
  (∀ tu, st.currentToolUse = some tu → tu.pending = true) ∧
  (∀ t, st.currentTextContent = some t → t.pending = true) ∧
  (st.currentToolUse.isSome = true → st.currentTextContent = none)

/-! ## Stream-normalizer embeddings

JS truthiness helpers (`x || d` treats 0 and the empty string as falsy;
`x ?? d` only replaces null/undefined). -/

/-- JS `x || d` on an optional number (`0` is falsy). -/
def jsOrNat (x : Option Nat) (d : Nat) : Nat :=
  match x with
  | some v => if v = 0 then d else v
  | none => d

/-- JS `x || d` on an optional integer (`0` is falsy). -/
def jsOrInt (x : Option Int) (d : Int) : Int :=
  match x with
  | some v => if v = 0 then d else v
  | none => d

/-- JS `x || undefined` on an optional count (`0` becomes `undefined`). -/
def jsOrUndef (x : Option Int) : Option Int :=
  match x with
  | some v => if v = 0 then none else some v
  | none => none

/-- JS `x || d` on an optional string (`""` is falsy). -/
def jsOrStr (x : Option String) (d : String) : String :=
  match x with
  | some v => if v = "" then d else v
  | none => d

/-! ### AnthropicHandler.getModel (src/api/providers/anthropic.ts) -/

/-- The fields of a model-table entry that `getModel` reads.  Modelled from
the spec: the table `anthropicModels` lives in src/shared/api.ts, which is
not among the extracted sources; the table is a parameter here. -/
structure ModelInfo where
  maxTokens : Option Nat
  thinking : Bool
deriving DecidableEq, Repr

/-- The `ApiHandlerOptions` fields that `AnthropicHandler.getModel` reads. -/
structure AnthropicOptions where
  apiModelId : Option String
  modelMaxTokens : Option Nat
  modelMaxThinkingTokens : Option Int
  modelTemperature : Option Rat
deriving DecidableEq, Repr

/-- The result of `getModel` (the `info` record is omitted; `thinkingBudget`
is `budget_tokens` of the thinking config when present). -/
structure AnthropicModelChoice where
  id : String
  temperature : Rat
  maxTokens : Nat
  thinkingBudget : Option Int
deriving DecidableEq, Repr

def ANTHROPIC_DEFAULT_TEMPERATURE : Rat := 0

/-- The fallback branch of `getModel` (unknown or absent model id). -/
def defaultModelChoice (anthropicModels : List (String × ModelInfo))
    (anthropicDefaultModelId : String) (temperature : Rat)
    (opts : AnthropicOptions) : AnthropicModelChoice :=
  let info := ((anthropicModels.find? (fun p => p.1 == anthropicDefaultModelId)).map
    Prod.snd).getD ⟨none, false⟩
  { id := anthropicDefaultModelId
    temperature := temperature
    maxTokens := jsOrNat opts.modelMaxTokens (jsOrNat info.maxTokens 8192)
    thinkingBudget := none }

/-- `AnthropicHandler.getModel`.  `Math.floor(maxTokens * 0.8)` is modelled
as `maxTokens * 8 / 10` in natural-number arithmetic, which coincides with
the floating-point floor on the token ranges involved. -/
def getModelAnthropic (anthropicModels : List (String × ModelInfo))
    (anthropicDefaultModelId : String) (opts : AnthropicOptions) :
    AnthropicModelChoice :=
  let temperature := opts.modelTemperature.getD ANTHROPIC_DEFAULT_TEMPERATURE
  match opts.apiModelId with
  | some modelId =>
    if modelId = "" then
      defaultModelChoice anthropicModels anthropicDefaultModelId temperature opts
    else
      match anthropicModels.find? (fun p => p.1 == modelId) with
      | some entry =>
        let info := entry.2
        let id := if modelId = "claude-3-7-sonnet-20250219:thinking"
          then "claude-3-7-sonnet-20250219" else modelId
        let maxTokens := jsOrNat opts.modelMaxTokens (jsOrNat info.maxTokens 8192)
        if info.thinking then
          let maxBudgetTokens : Int := ((maxTokens * 8) / 10 : Nat)
          let budgetTokens : Int :=
            max (min (opts.modelMaxThinkingTokens.getD maxBudgetTokens) maxBudgetTokens)
              1024
          { id := id, temperature := 1, maxTokens := maxTokens,
            thinkingBudget := some budgetTokens }
        else
          { id := id, temperature := temperature, maxTokens := maxTokens,
            thinkingBudget := none }
      | none =>
        defaultModelChoice anthropicModels anthropicDefaultModelId temperature opts
  | none => defaultModelChoice anthropicModels anthropicDefaultModelId temperature opts

/-! ### Prompt-cache annotation of AnthropicHandler.createMessage -/

inductive Role where
  | user
  | assistant
deriving DecidableEq, Repr

/-- One entry of a list-shaped message content; `cached` models the presence
of the `cache_control: { type: "ephemeral" }` marker. -/
structure ContentPart where
  payload : String
  cached : Bool
deriving DecidableEq, Repr

inductive MsgContent where
  | str : String → MsgContent
  | parts : List ContentPart → MsgContent
deriving DecidableEq, Repr

structure Message where
  role : Role
  content : MsgContent
deriving DecidableEq, Repr

/-- The `messages.reduce(...)` collecting indices of user-role messages. -/
def userMsgIndices (msgs : List Message) : List Nat :=
  msgs.enum.foldl (fun acc p => if p.2.role = Role.user then acc ++ [p.1] else acc) []

/-- JS array access `a[i]` where `i` may be negative (yielding undefined). -/
def jsIdx (l : List Nat) (i : Int) : Option Nat :=
  if i < 0 then none else l.get? i.toNat

/-- `userMsgIndices[userMsgIndices.length - 1] ?? -1`. -/
def lastUserMsgIndex (msgs : List Message) : Int :=
  match jsIdx (userMsgIndices msgs) ((userMsgIndices msgs).length - 1 : Int) with
  | some n => n
  | none => -1

/-- `userMsgIndices[userMsgIndices.length - 2] ?? -1`. -/
def secondLastUserMsgIndex (msgs : List Message) : Int :=
  match jsIdx (userMsgIndices msgs) ((userMsgIndices msgs).length - 2 : Int) with
  | some n => n
  | none => -1

/-- The ephemeral cache marker applied to one selected message: string
content becomes a single marked text part; for list content only the last
part is marked. -/
def markMessage (m : Message) : Message :=
  { m with content :=
      match m.content with
      | .str s => .parts [⟨s, true⟩]
      | .parts ps => .parts (ps.enum.map (fun q =>
          if q.1 = ps.length - 1 then { q.2 with cached := true } else q.2)) }

/-- The `messages.map((message, index) => ...)` of the prompt-caching branch
of `createMessage`. -/
def annotateCacheMessages (msgs : List Message) : List Message :=
  msgs.enum.map (fun p =>
    if (p.1 : Int) = lastUserMsgIndex msgs ∨ (p.1 : Int) = secondLastUserMsgIndex msgs
    then markMessage p.2 else p.2)

/-- Whether index `j` holds a user-role message. -/
def userAt (msgs : List Message) (j : Nat) : Bool :=
  match msgs.get? j with
  | some m => m.role == Role.user
  | none => false

/-! ### OpenAiHandler (src/api/providers/openai.ts) -/

structure OpenAiUsage where
  prompt_tokens : Option Int
  completion_tokens : Option Int
deriving DecidableEq, Repr

/-- The provider-agnostic stream events (`ApiStream` chunks). -/
inductive ApiStreamChunk where
  | text : String → ApiStreamChunk
  | reasoning : String → ApiStreamChunk
  | usage : Int → Int → Option Int → Option Int → ApiStreamChunk
deriving DecidableEq, Repr

/-- The input-token count of a usage event. -/
def inputTokensOf : ApiStreamChunk → Option Int
  | .usage i _ _ _ => some i
  | _ => none

/-- The output-token count of a usage event. -/
def outputTokensOf : ApiStreamChunk → Option Int
  | .usage _ o _ _ => some o
  | _ => none

/-- The cache-write count of a usage event. -/
def cacheWriteOf : ApiStreamChunk → Option Int
  | .usage _ _ cw _ => cw
  | _ => none

/-- The cache-read count of a usage event. -/
def cacheReadOf : ApiStreamChunk → Option Int
  | .usage _ _ _ cr => cr
  | _ => none

/-- `OpenAiHandler.processUsageMetrics`: no cache fields are emitted at all. -/
def processUsageMetrics (usage : Option OpenAiUsage) : ApiStreamChunk :=
  .usage (jsOrInt (usage.bind (fun u => u.prompt_tokens)) 0)
    (jsOrInt (usage.bind (fun u => u.completion_tokens)) 0) none none

structure OpenAiDelta where
  content : Option String
  reasoning_content : Option String
deriving DecidableEq, Repr

/-- One chunk of the streaming response (`chunk.choices[0]?.delta ?? {}` and
`chunk.usage`). -/
structure OpenAiStreamChunk where
  delta : Option OpenAiDelta
  usage : Option OpenAiUsage
deriving DecidableEq, Repr

/-- The events yielded for one streaming chunk. -/
def chunkEvents (ch : OpenAiStreamChunk) : List ApiStreamChunk :=
  (match ch.delta.bind (fun d => d.content) with
   | some s => if s = "" then [] else [ApiStreamChunk.text s]
   | none => []) ++
  (match ch.delta.bind (fun d => d.reasoning_content) with
   | some s => if s = "" then [] else [ApiStreamChunk.reasoning s]
   | none => []) ++
  (match ch.usage with
   | some u => [processUsageMetrics (some u)]
   | none => [])

structure ChatMessage where
  content : Option String
deriving DecidableEq, Repr

structure ChatChoice where
  message : ChatMessage
deriving DecidableEq, Repr

/-- A non-streaming chat completion response. -/
structure ChatResponse where
  choices : List ChatChoice
  usage : Option OpenAiUsage
deriving DecidableEq, Repr

/-- `OpenAiHandler.createMessage`, as the sequence of stream events it
yields: the streaming path re-emits each chunk's events; the non-streaming
path performs one round trip and re-expresses its single response as one
text event followed by one usage event. -/
def createMessageOpenAi (openAiStreamingEnabled : Bool)
    (streamChunks : List OpenAiStreamChunk) (response : ChatResponse) :
    List ApiStreamChunk :=
  if openAiStreamingEnabled then
    streamChunks.bind chunkEvents
  else
    [ApiStreamChunk.text
        (jsOrStr (response.choices.head?.bind (fun c => c.message.content)) ""),
      processUsageMetrics response.usage]

/-! ### Anthropic usage events -/

structure AnthropicUsage where
  input_tokens : Option Int
  output_tokens : Option Int
  cache_creation_input_tokens : Option Int
  cache_read_input_tokens : Option Int
deriving DecidableEq, Repr

/-- The usage event yielded on `message_start` by
`AnthropicHandler.createMessage`: cache counters use `|| undefined`, so an
absent or zero provider count becomes an absent field, never `0`. -/
def anthropicMessageStartUsage (u : AnthropicUsage) : ApiStreamChunk :=
  ApiStreamChunk.usage (jsOrInt u.input_tokens 0) (jsOrInt u.output_tokens 0)
    (jsOrUndef u.cache_creation_input_tokens) (jsOrUndef u.cache_read_input_tokens)

/-- The usage event yielded on `message_delta`: only output tokens. -/
def anthropicMessageDeltaUsage (outputTokens : Option Int) : ApiStreamChunk :=
  ApiStreamChunk.usage 0 (jsOrInt outputTokens 0) none none

theorem goodName.not_lt_mem {n : List Char} (h : goodName n) : '<' ∉ n :=
  fun hm => (h.2 '<' hm).1 rfl

theorem goodName.not_slash_mem {n : List Char} (h : goodName n) : '/' ∉ n :=
  fun hm => ((h.2 '/' hm).2.2.1) rfl


theorem afterLast_eq_none_of_not_mem {c : Char} {l : List Char} (h : c ∉ l) :
    afterLast c l = none := by
  induction l with
  | nil => rfl
  | cons a t ih =>
    have hat : c ∉ t := fun hm => h (List.mem_cons_of_mem _ hm)
    have hac : ¬ a = c := fun he => h (he ▸ List.mem_cons_self a t)
    simp [afterLast, ih hat, hac]

theorem afterLast_append_cons (c : Char) (q r : List Char) (hr : c ∉ r) :
    afterLast c (q ++ c :: r) = some r := by
  induction q with
  | nil => simp [afterLast, afterLast_eq_none_of_not_mem hr]
  | cons a t ih => simp [afterLast, ih]

theorem not_mem_of_afterLast_eq_none {c : Char} {l : List Char}
    (h : afterLast c l = none) : c ∉ l := by
  induction l with
  | nil => simp
  | cons a t ih =>
    simp only [afterLast] at h
    split at h
    · cases h
    · next heq =>
      split at h
      · cases h
      · next hac =>
        intro hm
        rcases List.mem_cons.mp hm with hca | hct
        · exact hac hca.symm
        · exact ih heq hct

theorem afterLast_eq_some {c : Char} {l r : List Char} (h : afterLast c l = some r) :
    ∃ q, l = q ++ c :: r ∧ c ∉ r := by
  induction l with
  | nil => simp [afterLast] at h
  | cons a t ih =>
    simp only [afterLast] at h
    split at h
    · next r' heq =>
      obtain ⟨q, hq, hcr⟩ := ih (by rw [heq, h])
      exact ⟨a :: q, by simp [hq], hcr⟩
    · next heq =>
      split at h
      · next hac =>
        cases h
        exact ⟨[], by simp [hac], not_mem_of_afterLast_eq_none heq⟩
      · cases h

theorem afterLast_eq_some_iff {c : Char} {l r : List Char} (hr : c ∉ r) :
    afterLast c l = some r ↔ ∃ q, l = q ++ c :: r := by
  constructor
  · intro h
    obtain ⟨q, hq, _⟩ := afterLast_eq_some h
    exact ⟨q, hq⟩
  · rintro ⟨q, rfl⟩
    exact afterLast_append_cons _ q _ hr

/-- The master characterization: for a name free of `<`, the buffer
`b ++ ['>']` ends with `<n>` exactly when `n` is the segment after the last
`<` of `b`. -/
theorem openTag_isSuffixOf_concat_iff (n b : List Char) (hn : '<' ∉ n) :
    (openTag n).isSuffixOf (b ++ ['>']) = true ↔ afterLast '<' b = some n := by
  rw [show ((openTag n).isSuffixOf (b ++ ['>']) = true) ↔ openTag n <:+ b ++ ['>'] from
    List.isSuffixOf_iff_suffix]
  constructor
  · rintro ⟨t, ht⟩
    have hb : t ++ ('<' :: n) = b := by
      exact @List.append_cancel_right Char _ ['>'] _
        (by simpa [openTag, List.append_assoc] using ht)
    rw [← hb]
    exact afterLast_append_cons _ t _ hn
  · intro h
    obtain ⟨q, hq⟩ := (afterLast_eq_some_iff hn).mp h
    exact ⟨q, by simp [hq, openTag]⟩

theorem closeTag_eq_openTag (n : List Char) : closeTag n = openTag ('/' :: n) := rfl

/-- A tag (which always ends in `>`) is never a suffix of a list whose last
element is not `>`. -/
theorem openTag_isSuffixOf_eq_false {n l : List Char} (h : l.getLast? ≠ some '>') :
    (openTag n).isSuffixOf l = false := by
  rw [Bool.eq_false_iff]
  intro hsuf
  obtain ⟨t, ht⟩ := List.isSuffixOf_iff_suffix.mp hsuf
  apply h
  rw [← ht, show t ++ openTag n = (t ++ ('<' :: n)) ++ ['>'] by simp [openTag],
    List.getLast?_concat]

/-- `find?` returns the unique element satisfying the test. -/
theorem find?_eq_some_of_unique {α : Type} {p : α → Bool} {l : List α} {a : α}
    (ha : a ∈ l) (hpa : p a = true) (huniq : ∀ b ∈ l, p b = true → b = a) :
    l.find? p = some a := by
  induction l with
  | nil => cases ha
  | cons x xs ih =>
    by_cases hx : p x = true
    · have hxa : x = a := huniq x (List.mem_cons_self x xs) hx
      subst hxa
      exact List.find?_cons_of_pos _ hx
    · rw [List.find?_cons_of_neg _ hx]
      rcases List.mem_cons.mp ha with rfl | hmem
      · exact absurd hpa hx
      · exact ih hmem (fun b hb hpb => huniq b (List.mem_cons_of_mem _ hb) hpb)

/-- Hunting for a tag over a vocabulary: the hit is the name after the last
`<`, when that name is in the vocabulary. -/
theorem findTag_eq_some {v : List (List Char)} (hv : goodVocab v) {b tn : List Char}
    (htn : tn ∈ v) (hb : afterLast '<' b = some tn) :
    v.find? (fun n => (openTag n).isSuffixOf (b ++ ['>'])) = some tn := by
  apply find?_eq_some_of_unique htn
  · exact (openTag_isSuffixOf_concat_iff tn b (hv tn htn).not_lt_mem).mpr hb
  · intro m hm hpm
    have := (openTag_isSuffixOf_concat_iff m b (hv m hm).not_lt_mem).mp hpm
    rw [hb] at this
    exact (Option.some_inj.mp this).symm

/-- No hit when the segment after the last `<` is not in the vocabulary. -/
theorem findTag_eq_none_of_not_mem {v : List (List Char)} (hv : goodVocab v)
    {b m : List Char} (hb : afterLast '<' b = some m) (hm : m ∉ v) :
    v.find? (fun n => (openTag n).isSuffixOf (b ++ ['>'])) = none := by
  rw [List.find?_eq_none]
  intro n hn hpn
  have := (openTag_isSuffixOf_concat_iff n b (hv n hn).not_lt_mem).mp hpn
  rw [hb] at this
  exact hm (Option.some_inj.mp this ▸ hn)

/-- No hit when the segment after the last `<` starts with `/` (it is then a
closing delimiter, and well-formed names contain no `/`). -/
theorem findTag_eq_none_of_slash {v : List (List Char)} (hv : goodVocab v)
    {b r : List Char} (hb : afterLast '<' b = some ('/' :: r)) :
    v.find? (fun n => (openTag n).isSuffixOf (b ++ ['>'])) = none := by
  rw [List.find?_eq_none]
  intro n hn hpn
  have := (openTag_isSuffixOf_concat_iff n b (hv n hn).not_lt_mem).mp hpn
  rw [hb] at this
  exact (hv n hn).not_slash_mem
    (Option.some_inj.mp this ▸ List.mem_cons_self '/' r)

/-- No hit at all when the buffer does not end in `>`. -/
theorem findTag_eq_none_of_last_ne {v : List (List Char)} {l : List Char}
    (h : l.getLast? ≠ some '>') :
    v.find? (fun n => (openTag n).isSuffixOf l) = none := by
  rw [List.find?_eq_none]
  intro n _ hpn
  rw [openTag_isSuffixOf_eq_false h] at hpn
  cases hpn

/-! ## Single-step and segment lemmas for the state machine

Every delimiter the parser hunts for ends in `>`, so a character other than
`>` can never complete a delimiter: on such characters the machine only
accumulates.  The lemmas below capture each branch of `stepChar` and the
closed-form effect of whole `>`-free segments. -/

theorem getLast?_drop_concat (acc : List Char) (c : Char) (k : Nat) :
    ((acc ++ [c]).drop k).getLast? = some c ∨ (acc ++ [c]).drop k = [] := by
  by_cases hk : k ≤ acc.length
  · left
    rw [List.drop_append_of_le_length hk]
    exact List.getLast?_concat _
  · right
    apply List.drop_eq_nil_of_le
    simp
    omega

theorem openTag_isSuffixOf_drop_concat_eq_false (n acc : List Char)
    {c : Char} (hc : c ≠ '>') (k : Nat) :
    (openTag n).isSuffixOf ((acc ++ [c]).drop k) = false := by
  rcases getLast?_drop_concat acc c k with h | h
  · exact openTag_isSuffixOf_eq_false
      (by rw [h]; intro he; exact hc (Option.some_inj.mp he))
  · rw [h]
    exact openTag_isSuffixOf_eq_false (by simp)

theorem openTag_isSuffixOf_concat_eq_false (n acc : List Char)
    {c : Char} (hc : c ≠ '>') :
    (openTag n).isSuffixOf (acc ++ [c]) = false := by
  have := openTag_isSuffixOf_drop_concat_eq_false n acc hc 0
  simpa using this

/-- A non-`>` character while inside a parameter: the machine only
accumulates. -/
theorem stepChar_inParam_acc (tns pns : List (List Char)) (st : ParserState)
    {tu : ToolUse} {pn : List Char} {c : Char}
    (h1 : st.currentToolUse = some tu) (h2 : st.currentParamName = some pn)
    (hc : c ≠ '>') :
    stepChar tns pns st c = { st with accumulator := st.accumulator ++ [c] } := by
  simp only [stepChar, h1, h2, closeTag_eq_openTag,
    openTag_isSuffixOf_drop_concat_eq_false _ st.accumulator hc,
    Bool.false_eq_true, if_false]

/-- A non-`>` character while inside a tool (no open parameter): the machine
only accumulates. -/
theorem stepChar_inTool_acc (tns pns : List (List Char)) (st : ParserState)
    {tu : ToolUse} {c : Char}
    (h1 : st.currentToolUse = some tu) (h2 : st.currentParamName = none)
    (hc : c ≠ '>') :
    stepChar tns pns st c = { st with accumulator := st.accumulator ++ [c] } := by
  have hlast : (st.accumulator ++ [c]).getLast? ≠ some '>' := by
    rw [List.getLast?_concat]
    intro he
    exact hc (Option.some_inj.mp he)
  have hnone : pns.find? (fun _ : List Char => false) = none := by
    rw [List.find?_eq_none]
    intro x _ hx
    cases hx
  simp only [stepChar, h1, h2, closeTag_eq_openTag,
    openTag_isSuffixOf_drop_concat_eq_false _ st.accumulator hc,
    openTag_isSuffixOf_concat_eq_false _ st.accumulator hc, hnone,
    Bool.false_eq_true, if_false, and_false, false_and]

/-- A non-`>` character outside any tool: the text span is (re)accumulated. -/
theorem stepChar_outside_acc (tns pns : List (List Char)) (st : ParserState)
    {c : Char}
    (h1 : st.currentToolUse = none) (hc : c ≠ '>') :
    stepChar tns pns st c =
      { st with
        accumulator := st.accumulator ++ [c]
        currentTextContentStartIndex :=
          match st.currentTextContent with
          | none => st.accumulator.length
          | some _ => st.currentTextContentStartIndex
        currentTextContent := some
          { content := trimChars ((st.accumulator ++ [c]).drop
              (match st.currentTextContent with
               | none => st.accumulator.length
               | some _ => st.currentTextContentStartIndex))
            pending := true } } := by
  have hlast : (st.accumulator ++ [c]).getLast? ≠ some '>' := by
    rw [List.getLast?_concat]
    intro he
    exact hc (Option.some_inj.mp he)
  simp only [stepChar, h1, findTag_eq_none_of_last_ne hlast]

/-- Outside any tool, a character that completes no known tool opening tag
(whatever it is): the text span is (re)accumulated. -/
theorem stepChar_outside_nofind (tns pns : List (List Char)) (st : ParserState)
    {c : Char}
    (h1 : st.currentToolUse = none)
    (hfind : tns.find? (fun n => (openTag n).isSuffixOf (st.accumulator ++ [c]))
      = none) :
    stepChar tns pns st c =
      { st with
        accumulator := st.accumulator ++ [c]
        currentTextContentStartIndex :=
          match st.currentTextContent with
          | none => st.accumulator.length
          | some _ => st.currentTextContentStartIndex
        currentTextContent := some
          { content := trimChars ((st.accumulator ++ [c]).drop
              (match st.currentTextContent with
               | none => st.accumulator.length
               | some _ => st.currentTextContentStartIndex))
            pending := true } } := by
  simp only [stepChar, h1, hfind]

/-- A `>`-free segment while inside a parameter: only the accumulator grows. -/
theorem foldl_inParam_acc (tns pns : List (List Char)) (st : ParserState)
    {tu : ToolUse} {pn : List Char} (seg : List Char)
    (h1 : st.currentToolUse = some tu) (h2 : st.currentParamName = some pn)
    (hseg : ∀ c ∈ seg, c ≠ '>') :
    List.foldl (stepChar tns pns) st seg =
      { st with accumulator := st.accumulator ++ seg } := by
  induction seg generalizing st with
  | nil => simp
  | cons c cs ih =>
    rw [List.foldl_cons, stepChar_inParam_acc tns pns st h1 h2 (hseg c (by simp))]
    rw [ih _ (by simpa using h1) (by simpa using h2)
      (fun x hx => hseg x (List.mem_cons_of_mem _ hx))]
    simp

/-- A `>`-free segment while inside a tool (no open parameter). -/
theorem foldl_inTool_acc (tns pns : List (List Char)) (st : ParserState)
    {tu : ToolUse} (seg : List Char)
    (h1 : st.currentToolUse = some tu) (h2 : st.currentParamName = none)
    (hseg : ∀ c ∈ seg, c ≠ '>') :
    List.foldl (stepChar tns pns) st seg =
      { st with accumulator := st.accumulator ++ seg } := by
  induction seg generalizing st with
  | nil => simp
  | cons c cs ih =>
    rw [List.foldl_cons, stepChar_inTool_acc tns pns st h1 h2 (hseg c (by simp))]
    rw [ih _ (by simpa using h1) (by simpa using h2)
      (fun x hx => hseg x (List.mem_cons_of_mem _ hx))]
    simp

/-- A `>`-free segment outside any tool, while a coherent text span is open
(its content is always the trimmed slice from its start index, which is how
every open text span is produced): the text is re-trimmed over the grown
accumulator. -/
theorem foldl_outside_acc_coh (tns pns : List (List Char)) (st : ParserState)
    (seg : List Char)
    (h1 : st.currentToolUse = none)
    (h2 : st.currentTextContent = some
      { content := trimChars (st.accumulator.drop st.currentTextContentStartIndex)
        pending := true })
    (hseg : ∀ x ∈ seg, x ≠ '>') :
    List.foldl (stepChar tns pns) st seg =
      { st with
        accumulator := st.accumulator ++ seg
        currentTextContent := some
          { content := trimChars ((st.accumulator ++ seg).drop
              st.currentTextContentStartIndex)
            pending := true } } := by
  induction seg generalizing st with
  | nil =>
    rw [List.foldl_nil]
    cases st
    simp_all
  | cons c cs ih =>
    rw [List.foldl_cons, stepChar_outside_acc tns pns st h1 (hseg c (by simp))]
    simp only [h2]
    rw [ih _ (by simp [h1]) (by simp) (fun x hx => hseg x (List.mem_cons_of_mem _ hx))]
    simp

/-- A `>`-free segment outside any tool with no open text span: a fresh text
span opens at the first character of the segment. -/
theorem foldl_outside_acc_none (tns pns : List (List Char)) (st : ParserState)
    {c : Char} (cs : List Char)
    (h1 : st.currentToolUse = none) (h2 : st.currentTextContent = none)
    (hseg : ∀ x ∈ c :: cs, x ≠ '>') :
    List.foldl (stepChar tns pns) st (c :: cs) =
      { st with
        accumulator := st.accumulator ++ (c :: cs)
        currentTextContentStartIndex := st.accumulator.length
        currentTextContent := some
          { content := trimChars (c :: cs), pending := true } } := by
  rw [List.foldl_cons, stepChar_outside_acc tns pns st h1 (hseg c (by simp))]
  simp only [h2]
  rw [foldl_outside_acc_coh tns pns _ cs (by simp [h1])
    (by simp) (fun x hx => hseg x (List.mem_cons_of_mem _ hx))]
  simp

/-- Outside a tool, a character completing a known tool opening tag: the open
text span (if any) is closed, stripped of the matched tag text, trimmed and
appended; a fresh pending `ToolUse` opens. -/
theorem stepChar_open_tool (tns pns : List (List Char)) (st : ParserState)
    {tn : List Char} {c : Char}
    (h1 : st.currentToolUse = none)
    (hfind : tns.find? (fun n => (openTag n).isSuffixOf (st.accumulator ++ [c]))
      = some tn) :
    stepChar tns pns st c =
      { st with
        accumulator := st.accumulator ++ [c]
        contentBlocks := st.contentBlocks ++
          (match st.currentTextContent with
           | some t => [ContentBlock.text
              { content := trimChars (dropLastN ((openTag tn).length - 1) t.content)
                pending := false }]
           | none => [])
        currentTextContent := none
        currentToolUse := some { name := tn, params := [], pending := true }
        currentToolUseStartIndex := st.accumulator.length + 1 } := by
  simp only [stepChar, h1, hfind]
  cases htc : st.currentTextContent <;> simp [htc]

/-- Inside a tool with no open parameter, a character completing the tool's
own closing tag: the tool is closed and appended. -/
theorem stepChar_close_tool (tns pns : List (List Char)) (st : ParserState)
    {tu : ToolUse} {c : Char}
    (h1 : st.currentToolUse = some tu) (h2 : st.currentParamName = none)
    (hclose : (closeTag tu.name).isSuffixOf
      ((st.accumulator ++ [c]).drop st.currentToolUseStartIndex) = true) :
    stepChar tns pns st c =
      { st with
        accumulator := st.accumulator ++ [c]
        contentBlocks := st.contentBlocks ++
          [ContentBlock.tool { tu with pending := false }]
        currentToolUse := none } := by
  simp only [stepChar, h1, h2, hclose, if_true]

/-- Inside a tool with no open parameter, a character completing a known
parameter opening tag (and not the tool's closing tag, and not triggering the
`write_to_file` special case): the parameter opens. -/
theorem stepChar_open_param (tns pns : List (List Char)) (st : ParserState)
    {tu : ToolUse} {pn : List Char} {c : Char}
    (h1 : st.currentToolUse = some tu) (h2 : st.currentParamName = none)
    (hnclose : (closeTag tu.name).isSuffixOf
      ((st.accumulator ++ [c]).drop st.currentToolUseStartIndex) = false)
    (hfind : pns.find? (fun n => (openTag n).isSuffixOf (st.accumulator ++ [c]))
      = some pn)
    (hspec : ¬ (tu.name = writeToFileName ∧
      (closeTag contentParamName).isSuffixOf (st.accumulator ++ [c]) = true)) :
    stepChar tns pns st c =
      { st with
        accumulator := st.accumulator ++ [c]
        currentToolUse := some tu
        currentParamName := some pn
        currentParamValueStartIndex := st.accumulator.length + 1 } := by
  simp only [stepChar, h1, h2, hnclose, hfind, Bool.false_eq_true, if_false]
  rw [if_neg hspec]
  simp [h1]

/-- Inside a parameter, a character completing that parameter's closing tag:
the value is stored (trimmed, tag stripped) and the parameter closes. -/
theorem stepChar_close_param (tns pns : List (List Char)) (st : ParserState)
    {tu : ToolUse} {pn : List Char} {c : Char}
    (h1 : st.currentToolUse = some tu) (h2 : st.currentParamName = some pn)
    (hclose : (closeTag pn).isSuffixOf
      ((st.accumulator ++ [c]).drop st.currentParamValueStartIndex) = true) :
    stepChar tns pns st c =
      { st with
        accumulator := st.accumulator ++ [c]
        currentToolUse := some { tu with
          params := setParam tu.params pn (trimChars (dropLastN
            (closeTag pn).length
            ((st.accumulator ++ [c]).drop st.currentParamValueStartIndex))) }
        currentParamName := none } := by
  simp only [stepChar, h1, h2, hclose, if_true]

/-- Inside a `write_to_file` tool with no open parameter, a character
completing `</content>` (with no parameter opening and not the tool's closing
tag): the special re-slice between the first `<content>` and the last
`</content>` runs. -/
theorem stepChar_special_content (tns pns : List (List Char)) (st : ParserState)
    {tu : ToolUse} {c : Char}
    (h1 : st.currentToolUse = some tu) (h2 : st.currentParamName = none)
    (hnclose : (closeTag tu.name).isSuffixOf
      ((st.accumulator ++ [c]).drop st.currentToolUseStartIndex) = false)
    (hfind : pns.find? (fun n => (openTag n).isSuffixOf (st.accumulator ++ [c]))
      = none)
    (hname : tu.name = writeToFileName)
    (hsuf : (closeTag contentParamName).isSuffixOf (st.accumulator ++ [c]) = true) :
    stepChar tns pns st c =
      { st with
        accumulator := st.accumulator ++ [c]
        currentToolUse := some
          (let toolContent := (st.accumulator ++ [c]).drop st.currentToolUseStartIndex
           let contentStartIndex : Int :=
             jsIndexOf toolContent (openTag contentParamName) +
               ((openTag contentParamName).length : Int)
           let contentEndIndex : Int := jsLastIndexOf toolContent (closeTag contentParamName)
           if contentStartIndex ≠ -1 ∧ contentEndIndex ≠ -1 ∧
               contentEndIndex > contentStartIndex then
             { tu with
               params := setParam tu.params contentParamName
                 (trimChars (jsSliceII toolContent contentStartIndex contentEndIndex)) }
           else tu) } := by
  rw [hname] at hnclose
  simp only [stepChar, h1, h2, hname, hnclose, hfind, hsuf, Bool.false_eq_true, if_false,
    and_true, if_true]

/-! ## Helpers for concrete traces -/

theorem dropWhile_eq_self_of_head {p : Char → Bool} : ∀ {l : List Char},
    (∀ hd, l.head? = some hd → p hd = false) → l.dropWhile p = l
  | [], _ => rfl
  | a :: _, h => by
    rw [List.dropWhile_cons]
    simp [h a rfl]

theorem trimChars_eq_self {l : List Char}
    (hh : ∀ hd, l.head? = some hd → wsp hd = false)
    (hl : ∀ lt, l.getLast? = some lt → wsp lt = false) :
    trimChars l = l := by
  unfold trimChars
  rw [dropWhile_eq_self_of_head hh]
  rw [dropWhile_eq_self_of_head
    (fun hd hhd => hl hd (by rwa [List.getLast?_eq_head?_reverse]))]
  exact List.reverse_reverse l

/-- Boolean form: a list is always a suffix of anything extended with itself. -/
theorem isSuffixOf_append_self (s t : List Char) : t.isSuffixOf (s ++ t) = true :=
  List.isSuffixOf_iff_suffix.mpr (List.suffix_append s t)

/-- Equation form of `afterLast_append_cons`, for lists given up to `simp`
normalization. -/
theorem afterLast_eq_of_append (c : Char) (l q r : List Char)
    (hl : l = q ++ c :: r) (hr : c ∉ r) : afterLast c l = some r :=
  hl ▸ afterLast_append_cons c q r hr

/-- A tag at the end of a buffer survives dropping a prefix shorter than the
rest. -/
theorem isSuffixOf_drop_of_eq_append (t l u : List Char) (k : Nat)
    (hl : l = u ++ t) (hk : k ≤ u.length) : t.isSuffixOf (l.drop k) = true := by
  subst hl
  rw [List.drop_append_of_le_length hk]
  exact isSuffixOf_append_self _ _

theorem afterLast_cons_self {c : Char} {r : List Char} (hr : c ∉ r) :
    afterLast c (c :: r) = some r := by
  have := afterLast_append_cons c [] r hr
  simpa using this

/-- A closing delimiter for any well-formed name is never a suffix of an
opening delimiter for a well-formed name. -/
theorem closeTag_isSuffixOf_openTag_eq_false {T P : List Char}
    (hT : goodName T) (hP : goodName P) :
    (closeTag T).isSuffixOf (openTag P) = false := by
  rw [closeTag_eq_openTag, Bool.eq_false_iff]
  intro hsuf
  have hlt : '<' ∉ '/' :: T := by
    intro hm
    rcases List.mem_cons.mp hm with h | h
    · cases h
    · exact hT.not_lt_mem h
  have := (openTag_isSuffixOf_concat_iff ('/' :: T) ('<' :: P) hlt).mp
    (by simpa [openTag] using hsuf)
  rw [afterLast_cons_self hP.not_lt_mem] at this
  have hPeq : P = '/' :: T := Option.some_inj.mp this
  exact hP.not_slash_mem (hPeq ▸ List.mem_cons_self '/' T)

/-- A `>`-free nonempty segment outside any tool with no open text span. -/
theorem foldl_outside_fresh (tns pns : List (List Char)) (st : ParserState)
    (seg : List Char)
    (h1 : st.currentToolUse = none) (h2 : st.currentTextContent = none)
    (hne : seg ≠ []) (hseg : ∀ x ∈ seg, x ≠ '>') :
    List.foldl (stepChar tns pns) st seg =
      { st with
        accumulator := st.accumulator ++ seg
        currentTextContentStartIndex := st.accumulator.length
        currentTextContent := some
          { content := trimChars seg, pending := true } } := by
  obtain ⟨c, cs, rfl⟩ := List.exists_cons_of_ne_nil hne
  exact foldl_outside_acc_none tns pns st cs h1 h2 hseg

/-- The common tool-body trace `<P>v1</P>` from a state where a tool `T` has
just been opened: the parameter `P` opens, collects `v1`, and closes. -/
theorem foldl_tool_body (tns pns : List (List Char)) (hpv : goodVocab pns)
    (T P : List Char) (hTg : goodName T) (hPg : goodName P) (hP : P ∈ pns)
    (st : ParserState)
    (h1 : st.currentToolUse = some ⟨T, [], true⟩)
    (h2 : st.currentParamName = none)
    (h3 : st.currentToolUseStartIndex = st.accumulator.length) :
    List.foldl (stepChar tns pns) st (openTag P ++ (['v', '1'] ++ closeTag P)) =
      { st with
        accumulator := st.accumulator ++ (openTag P ++ (['v', '1'] ++ closeTag P))
        currentToolUse := some ⟨T, [(P, ['v', '1'])], true⟩
        currentParamName := none
        currentParamValueStartIndex := (st.accumulator ++ ('<' :: P)).length + 1 } := by
  -- decompose the body into `>`-free segments and the two `>` boundaries
  have hdecomp : openTag P ++ (['v', '1'] ++ closeTag P) =
      ('<' :: P) ++ ('>' :: ((['v', '1', '<', '/'] ++ P) ++ ['>'])) := by
    simp [openTag, closeTag]
  rw [hdecomp, List.foldl_append]
  -- segment `<P`
  have hsegP : ∀ x ∈ '<' :: P, x ≠ '>' := by
    intro x hx
    rcases List.mem_cons.mp hx with rfl | hx
    · decide
    · exact (hPg.2 x hx).2.1
  rw [foldl_inTool_acc tns pns st ('<' :: P) h1 h2 hsegP, List.foldl_cons]
  -- boundary `>` opening the parameter
  have hnclose : (closeTag T).isSuffixOf
      (((st.accumulator ++ ('<' :: P)) ++ ['>']).drop st.currentToolUseStartIndex)
      = false := by
    rw [List.append_assoc, List.drop_left' (by rw [h3]),
      show ('<' :: P) ++ ['>'] = openTag P from rfl]
    exact closeTag_isSuffixOf_openTag_eq_false hTg hPg
  have hfind : pns.find?
      (fun n => (openTag n).isSuffixOf ((st.accumulator ++ ('<' :: P)) ++ ['>']))
      = some P :=
    findTag_eq_some hpv hP (afterLast_append_cons '<' st.accumulator P hPg.not_lt_mem)
  have hspec : ¬ ((⟨T, [], true⟩ : ToolUse).name = writeToFileName ∧
      (closeTag contentParamName).isSuffixOf ((st.accumulator ++ ('<' :: P)) ++ ['>'])
        = true) := by
    rintro ⟨-, hsuf⟩
    rw [closeTag_eq_openTag] at hsuf
    have hlt : '<' ∉ '/' :: contentParamName := by decide
    have := (openTag_isSuffixOf_concat_iff ('/' :: contentParamName)
      (st.accumulator ++ ('<' :: P)) hlt).mp hsuf
    rw [afterLast_append_cons '<' st.accumulator P hPg.not_lt_mem] at this
    have hPeq : P = '/' :: contentParamName := Option.some_inj.mp this
    exact hPg.not_slash_mem (hPeq ▸ List.mem_cons_self '/' contentParamName)
  rw [stepChar_open_param tns pns _ (by simpa using h1) (by simpa using h2)
    (by simpa using hnclose) (by simpa using hfind) (by simpa using hspec)]
  -- segment `v1</P`
  have hsegV : ∀ x ∈ ['v', '1', '<', '/'] ++ P, x ≠ '>' := by
    intro x hx
    rcases List.mem_append.mp hx with hx | hx
    · have hv : ∀ y ∈ ['v', '1', '<', '/'], y ≠ '>' := by decide
      exact hv x hx
    · exact (hPg.2 x hx).2.1
  rw [List.foldl_append,
    foldl_inParam_acc tns pns _ (['v', '1', '<', '/'] ++ P) rfl rfl hsegV,
    List.foldl_cons, List.foldl_nil]
  -- boundary `>` closing the parameter
  have hshape : ((((st.accumulator ++ ('<' :: P)) ++ ['>']) ++ ((['v', '1', '<', '/'] ++ P))) ++ ['>'])
      = (st.accumulator ++ ('<' :: (P ++ ['>']))) ++ (['v', '1'] ++ closeTag P) := by
    simp [closeTag]
  have hlen1 : (st.accumulator ++ ('<' :: (P ++ ['>']))).length =
      (st.accumulator ++ ('<' :: P)).length + 1 := by
    simp only [List.length_append, List.length_cons, List.length_nil]
    omega
  have hdrop : (((((st.accumulator ++ ('<' :: P)) ++ ['>']) ++ ((['v', '1', '<', '/'] ++ P))) ++ ['>']).drop
      ((st.accumulator ++ ('<' :: P)).length + 1)) = ['v', '1'] ++ closeTag P := by
    rw [hshape]
    exact List.drop_left' hlen1
  have hclose : (closeTag P).isSuffixOf
      (((((st.accumulator ++ ('<' :: P)) ++ ['>']) ++ ((['v', '1', '<', '/'] ++ P))) ++ ['>']).drop
        ((st.accumulator ++ ('<' :: P)).length + 1)) = true := by
    rw [hdrop]
    exact isSuffixOf_append_self ['v', '1'] (closeTag P)
  rw [stepChar_close_param tns pns _ rfl rfl (by simpa using hclose)]
  -- the stored value is `v1`
  have hval : trimChars (dropLastN (closeTag P).length
      (((((st.accumulator ++ ('<' :: P)) ++ ['>']) ++ ((['v', '1', '<', '/'] ++ P))) ++ ['>']).drop
        ((st.accumulator ++ ('<' :: P)).length + 1))) = ['v', '1'] := by
    rw [hdrop]
    unfold dropLastN
    rw [show (['v', '1'] ++ closeTag P).length - (closeTag P).length = 2 by
        simp only [List.length_append, List.length_cons, List.length_nil]
        omega,
      List.take_left' (show (['v', '1'] : List Char).length = 2 from rfl)]
    decide
  rw [hval]
  simp [setParam, openTag, closeTag]

/-- If a list ends with a well-formed name (preceded by `<`), its last
character is not whitespace. -/
theorem getLast?_pre_tag (pre T : List Char) (hTne : T ≠ []) :
    ∃ c0, (pre ++ ('<' :: T)).getLast? = some c0 ∧ c0 ∈ T := by
  refine ⟨T.getLast hTne, ?_, List.getLast_mem hTne⟩
  rw [List.getLast?_append, show ('<' :: T) = ['<'] ++ T from rfl,
    List.getLast?_append, List.getLast?_eq_getLast T hTne]
  rfl

/-- `trim` is the identity on a buffer that starts with a non-whitespace
character and ends with `<` followed by a well-formed name. -/
theorem trimChars_pre_tag (pre T : List Char) (hTg : goodName T)
    (hpre : ∀ hd, (pre ++ ('<' :: T)).head? = some hd → wsp hd = false) :
    trimChars (pre ++ ('<' :: T)) = pre ++ ('<' :: T) := by
  apply trimChars_eq_self hpre
  intro lt h
  obtain ⟨c0, hc0, hc0m⟩ := getLast?_pre_tag pre T hTg.1
  rw [hc0] at h
  have hlc : lt = c0 := Option.some_inj.mp h.symm
  rw [hlc]
  exact (hTg.2 c0 hc0m).2.2.2

/-- Shared trace: parsing `"before text <T><P>v1</P></T> after text"` for
well-formed vocabularies. -/
theorem parse_round_trip (tns pns : List (List Char)) (T P : List Char)
    (htv : goodVocab tns) (hpv : goodVocab pns) (hT : T ∈ tns) (hP : P ∈ pns) :
    parseAssistantMessage tns pns
      ("before text ".data ++ openTag T ++ openTag P ++ "v1".data ++
        closeTag P ++ closeTag T ++ " after text".data) =
      [ContentBlock.text ⟨"before text".data, false⟩,
       ContentBlock.tool ⟨T, [(P, "v1".data)], false⟩,
       ContentBlock.text ⟨"after text".data, true⟩] := by
  have hTg : goodName T := htv T hT
  have hPg : goodName P := hpv P hP
  have hTne : T ≠ [] := hTg.1
  -- rewrite the buffer into segment shape
  have hbuf : "before text ".data ++ openTag T ++ openTag P ++ "v1".data ++
      closeTag P ++ closeTag T ++ " after text".data =
      (("before text ".data ++ ('<' :: T)) ++
        ('>' :: ((openTag P ++ (['v', '1'] ++ closeTag P)) ++
          (('<' :: '/' :: T) ++
            ('>' :: [' ', 'a', 'f', 't', 'e', 'r', ' ', 't', 'e', 'x', 't']))))) := by
    have hv : "v1".data = ['v', '1'] := rfl
    have ha : " after text".data = [' ', 'a', 'f', 't', 'e', 'r', ' ', 't', 'e', 'x', 't'] := rfl
    rw [hv, ha]
    simp [openTag, closeTag]
  unfold parseAssistantMessage startState
  rw [hbuf, List.foldl_append]
  -- segment "before text <T": text accumulates
  have hsegT : ∀ x ∈ "before text ".data ++ ('<' :: T), x ≠ '>' := by
    intro x hx
    rcases List.mem_append.mp hx with hx | hx
    · have hy : ∀ y ∈ "before text ".data, y ≠ '>' := by decide
      exact hy x hx
    · rcases List.mem_cons.mp hx with rfl | hx
      · decide
      · exact (hTg.2 x hx).2.1
  rw [foldl_outside_fresh tns pns _ _ rfl rfl (by simp) hsegT, List.foldl_cons]
  -- the accumulated text is untrimmed (no surrounding whitespace)
  have htrim1 : trimChars ("before text ".data ++ ('<' :: T)) =
      "before text ".data ++ ('<' :: T) := by
    apply trimChars_eq_self
    · intro hd h
      injection h with h2
      rw [← h2]
      decide
    · intro lt h
      obtain ⟨c0, hc0⟩ : ∃ c0, T.getLast? = some c0 :=
        ⟨T.getLast hTne, List.getLast?_eq_getLast T hTne⟩
      have hc0m : c0 ∈ T := by
        have hm := List.getLast_mem hTne
        rwa [show T.getLast hTne = c0 by
          have h3 := hc0
          rw [List.getLast?_eq_getLast T hTne] at h3
          exact Option.some_inj.mp h3] at hm
      rw [List.getLast?_append, show ('<' :: T).getLast? = some c0 by
        rw [show ('<' :: T) = ['<'] ++ T from rfl, List.getLast?_append, hc0]
        rfl] at h
      have hlc : lt = c0 := by
        simpa using h.symm
      rw [hlc]
      exact (hTg.2 c0 hc0m).2.2.2
  -- boundary `>`: the tool opens
  have hfind1 : tns.find? (fun n => (openTag n).isSuffixOf
      (("before text ".data ++ ('<' :: T)) ++ ['>'])) = some T :=
    findTag_eq_some htv hT (afterLast_append_cons '<' "before text ".data T hTg.not_lt_mem)
  rw [stepChar_open_tool tns pns _ rfl (by simpa using hfind1)]
  simp only [htrim1]
  -- the closed text block is "before text"
  have htext1 : trimChars (dropLastN ((openTag T).length - 1)
      ("before text ".data ++ ('<' :: T))) = "before text".data := by
    unfold dropLastN
    rw [show ("before text ".data ++ ('<' :: T)).length - ((openTag T).length - 1) = 12 by
        simp only [openTag, List.length_append, List.length_cons, List.length_nil]
        have h12 : "before text ".data.length = 12 := rfl
        omega,
      List.take_left' (show ("before text ".data).length = 12 from rfl)]
    decide
  rw [htext1]
  -- the tool body <P>v1</P>
  rw [List.foldl_append]
  rw [foldl_tool_body tns pns hpv T P hTg hPg hP _ rfl rfl (by simp <;> omega)]
  -- segment "</T"
  have hsegC : ∀ x ∈ '<' :: '/' :: T, x ≠ '>' := by
    intro x hx
    rcases List.mem_cons.mp hx with rfl | hx
    · decide
    · rcases List.mem_cons.mp hx with rfl | hx
      · decide
      · exact (hTg.2 x hx).2.1
  rw [List.foldl_append, foldl_inTool_acc tns pns _ ('<' :: '/' :: T) rfl rfl hsegC,
    List.foldl_cons]
  -- boundary `>`: the tool closes
  rw [stepChar_close_tool tns pns _ rfl rfl
    (isSuffixOf_drop_of_eq_append (closeTag T) _
      ("before text ".data ++ ('<' :: (T ++ ('>' :: (openTag P ++
        (['v', '1'] ++ closeTag P)))))) _
      (by simp [closeTag]) (by simp [openTag, closeTag] <;> omega))]
  -- segment " after text"
  have hsegA : ∀ x ∈ [' ', 'a', 'f', 't', 'e', 'r', ' ', 't', 'e', 'x', 't'], x ≠ '>' := by
    decide
  rw [foldl_outside_fresh tns pns _ _ rfl rfl (by simp) hsegA]
  -- flush
  simp only [finalizeState]
  rw [show trimChars [' ', 'a', 'f', 't', 'e', 'r', ' ', 't', 'e', 'x', 't'] =
    "after text".data from by decide]
  simp

/-- Shared trace: parsing the partial tail `"<T><P>v1</P>"` (tool never
closed).  The code first closes an empty text block (the text span opened on
`<` has everything stripped again when the tag completes), then flushes the
open tool with `pending` still `true`. -/
theorem parse_partial_tail (tns pns : List (List Char)) (T P : List Char)
    (htv : goodVocab tns) (hpv : goodVocab pns) (hT : T ∈ tns) (hP : P ∈ pns) :
    parseAssistantMessage tns pns
      (openTag T ++ openTag P ++ "v1".data ++ closeTag P) =
      [ContentBlock.text ⟨[], false⟩,
       ContentBlock.tool ⟨T, [(P, "v1".data)], true⟩] := by
  have hTg : goodName T := htv T hT
  have hPg : goodName P := hpv P hP
  have hbuf : openTag T ++ openTag P ++ "v1".data ++ closeTag P =
      ('<' :: T) ++ ('>' :: (openTag P ++ (['v', '1'] ++ closeTag P))) := by
    have hv : "v1".data = ['v', '1'] := rfl
    rw [hv]
    simp [openTag]
  unfold parseAssistantMessage startState
  rw [hbuf, List.foldl_append]
  -- segment "<T": a text span opens on the incomplete tag
  have hsegT : ∀ x ∈ '<' :: T, x ≠ '>' := by
    intro x hx
    rcases List.mem_cons.mp hx with rfl | hx
    · decide
    · exact (hTg.2 x hx).2.1
  rw [foldl_outside_fresh tns pns _ _ rfl rfl (by simp) hsegT, List.foldl_cons]
  -- boundary `>`: the tool opens, the text block is closed empty
  have hfind1 : tns.find? (fun n => (openTag n).isSuffixOf (('<' :: T) ++ ['>']))
      = some T :=
    findTag_eq_some htv hT (afterLast_cons_self hTg.not_lt_mem)
  rw [stepChar_open_tool tns pns _ rfl (by simpa using hfind1)]
  have htrim : trimChars ('<' :: T) = '<' :: T := by
    have := trimChars_pre_tag [] T hTg (by
      intro hd h
      injection h with h2
      rw [← h2]
      decide)
    simpa using this
  simp only [htrim]
  have htext : trimChars (dropLastN ((openTag T).length - 1) ('<' :: T)) = [] := by
    unfold dropLastN
    rw [show ('<' :: T).length - ((openTag T).length - 1) = 0 by
        simp only [openTag, List.length_append, List.length_cons, List.length_nil]
        omega,
      List.take_zero]
    rfl
  rw [htext]
  -- the tool body <P>v1</P>
  rw [foldl_tool_body tns pns hpv T P hTg hPg hP _ rfl rfl (by simp <;> omega)]
  -- flush: the open tool is emitted still pending
  simp [finalizeState]

/-- Shared trace: an opening-tag-shaped substring whose name is not in the
tool vocabulary stays ordinary text. -/
theorem parse_unknown_tag (tns pns : List (List Char))
    (htv : goodVocab tns) (hnot : "notARealTool".data ∉ tns) :
    parseAssistantMessage tns pns "<notARealTool>hi</notARealTool>".data =
      [ContentBlock.text ⟨"<notARealTool>hi</notARealTool>".data, true⟩] := by
  unfold parseAssistantMessage startState
  rw [show "<notARealTool>hi</notARealTool>".data =
      "<notARealTool".data ++ ('>' :: ("hi</notARealTool".data ++ ['>'])) from by decide,
    List.foldl_append]
  rw [foldl_outside_fresh tns pns _ "<notARealTool".data rfl rfl (by decide) (by decide),
    List.foldl_cons]
  show finalizeState (List.foldl (stepChar tns pns)
    (stepChar tns pns
      ⟨[], some ⟨trimChars "<notARealTool".data, true⟩, 0, none, 0, none, 0,
        "<notARealTool".data⟩ '>')
    ("hi</notARealTool".data ++ ['>'])) = _
  rw [stepChar_outside_nofind tns pns _ rfl
    (findTag_eq_none_of_not_mem htv
      (afterLast_eq_of_append '<' "<notARealTool".data [] "notARealTool".data
        (by decide) (by decide)) hnot)]
  show finalizeState (List.foldl (stepChar tns pns)
    ⟨[], some ⟨"<notARealTool>".data, true⟩, 0, none, 0, none, 0,
      "<notARealTool>".data⟩ ("hi</notARealTool".data ++ ['>'])) = _
  rw [List.foldl_append,
    foldl_outside_acc_coh tns pns _ "hi</notARealTool".data rfl (by decide) (by decide),
    List.foldl_cons, List.foldl_nil]
  show finalizeState (stepChar tns pns
    ⟨[], some ⟨trimChars "<notARealTool>hi</notARealTool".data, true⟩, 0, none, 0,
      none, 0, "<notARealTool>hi</notARealTool".data⟩ '>') = _
  rw [stepChar_outside_nofind tns pns _ rfl
    (findTag_eq_none_of_slash htv
      (afterLast_eq_of_append '<' "<notARealTool>hi</notARealTool".data
        "<notARealTool>hi".data ('/' :: "notARealTool".data) (by decide) (by decide)))]
  decide

/-- Shared trace: the `write_to_file` special case.  The payload of the
`content` parameter itself contains the literal `</content>`; the parser
re-slices between the first `<content>` and the last `</content>` seen so
far, so the stored value is the whole payload. -/
theorem parse_embedded_content (tns pns : List (List Char))
    (htv : goodVocab tns) (hpv : goodVocab pns)
    (hWT : "write_to_file".data ∈ tns) (hCont : "content".data ∈ pns) :
    parseAssistantMessage tns pns
      "<write_to_file><content>line1\n</content>\nline2</content></write_to_file>".data =
      [ContentBlock.text ⟨[], false⟩,
       ContentBlock.tool ⟨"write_to_file".data,
         [("content".data, "line1\n</content>\nline2".data)], false⟩] := by
  unfold parseAssistantMessage startState
  rw [show
    "<write_to_file><content>line1\n</content>\nline2</content></write_to_file>".data =
      "<write_to_file".data ++ ('>' :: ("<content".data ++ ('>' ::
        ("line1\n</content".data ++ ('>' :: ("\nline2</content".data ++ ('>' ::
          ("</write_to_file".data ++ ['>'])))))))) from by decide,
    List.foldl_append]
  -- "<write_to_file" accumulates as text
  rw [foldl_outside_fresh tns pns _ "<write_to_file".data rfl rfl (by decide) (by decide),
    List.foldl_cons]
  show finalizeState (List.foldl (stepChar tns pns)
    (stepChar tns pns
      ⟨[], some ⟨"<write_to_file".data, true⟩, 0, none, 0, none, 0,
        "<write_to_file".data⟩ '>')
    ("<content".data ++ ('>' :: ("line1\n</content".data ++ ('>' ::
      ("\nline2</content".data ++ ('>' :: ("</write_to_file".data ++ ['>'])))))))) = _
  -- `>` opens the tool, closing an empty text block
  rw [stepChar_open_tool tns pns _ rfl
    (findTag_eq_some htv hWT
      (afterLast_eq_of_append '<' "<write_to_file".data [] "write_to_file".data
        (by decide) (by decide)))]
  show finalizeState (List.foldl (stepChar tns pns)
    ⟨[ContentBlock.text ⟨[], false⟩], none, 0,
      some ⟨"write_to_file".data, [], true⟩, 15, none, 0, "<write_to_file>".data⟩
    ("<content".data ++ ('>' :: ("line1\n</content".data ++ ('>' ::
      ("\nline2</content".data ++ ('>' :: ("</write_to_file".data ++ ['>'])))))))) = _
  -- "<content" accumulates inside the tool
  rw [List.foldl_append,
    foldl_inTool_acc tns pns _ "<content".data rfl rfl (by decide), List.foldl_cons]
  -- `>` opens the content parameter
  rw [stepChar_open_param tns pns _ rfl rfl (by decide)
    (findTag_eq_some hpv hCont
      (afterLast_eq_of_append '<' ("<write_to_file>".data ++ "<content".data)
        "<write_to_file>".data "content".data (by decide) (by decide)))
    (by decide)]
  show finalizeState (List.foldl (stepChar tns pns)
    ⟨[ContentBlock.text ⟨[], false⟩], none, 0,
      some ⟨"write_to_file".data, [], true⟩, 15, some "content".data, 24,
      "<write_to_file><content>".data⟩
    ("line1\n</content".data ++ ('>' ::
      ("\nline2</content".data ++ ('>' :: ("</write_to_file".data ++ ['>'])))))) = _
  -- the payload up to the first "</content" accumulates in the parameter
  rw [List.foldl_append,
    foldl_inParam_acc tns pns _ "line1\n</content".data rfl rfl (by decide),
    List.foldl_cons]
  -- `>` closes the parameter with the value "line1"
  rw [stepChar_close_param tns pns _ rfl rfl (by decide)]
  show finalizeState (List.foldl (stepChar tns pns)
    ⟨[ContentBlock.text ⟨[], false⟩], none, 0,
      some ⟨"write_to_file".data, [("content".data, "line1".data)], true⟩, 15, none, 24,
      "<write_to_file><content>line1\n</content>".data⟩
    ("\nline2</content".data ++ ('>' :: ("</write_to_file".data ++ ['>'])))) = _
  -- the rest of the payload accumulates inside the tool
  rw [List.foldl_append,
    foldl_inTool_acc tns pns _ "\nline2</content".data rfl rfl (by decide),
    List.foldl_cons]
  -- `>` completes a second "</content>": the special re-slice fires
  rw [stepChar_special_content tns pns _ rfl rfl (by decide)
    (findTag_eq_none_of_slash hpv
      (afterLast_eq_of_append '<'
        "<write_to_file><content>line1\n</content>\nline2</content".data
        "<write_to_file><content>line1\n</content>\nline2".data
        ('/' :: "content".data) (by decide) (by decide)))
    (by decide) (by decide)]
  show finalizeState (List.foldl (stepChar tns pns)
    ⟨[ContentBlock.text ⟨[], false⟩], none, 0,
      some ⟨"write_to_file".data,
        [("content".data, "line1\n</content>\nline2".data)], true⟩, 15, none, 24,
      "<write_to_file><content>line1\n</content>\nline2</content>".data⟩
    ("</write_to_file".data ++ ['>'])) = _
  -- "</write_to_file" accumulates, then `>` closes the tool
  rw [List.foldl_append,
    foldl_inTool_acc tns pns _ "</write_to_file".data rfl rfl (by decide),
    List.foldl_cons, List.foldl_nil]
  rw [stepChar_close_tool tns pns _ rfl rfl (by decide)]
  decide


theorem stInv_start : StInv startState := by
  refine ⟨?_, ?_, ?_, ?_⟩ <;> simp [startState]

/-- Inside a parameter whose closing tag has not appeared: only accumulate. -/
theorem stepChar_inParam_stay (tns pns : List (List Char)) (st : ParserState)
    (tu : ToolUse) (pn : List Char) (c : Char)
    (h1 : st.currentToolUse = some tu) (h2 : st.currentParamName = some pn)
    (hnclose : (closeTag pn).isSuffixOf
      ((st.accumulator ++ [c]).drop st.currentParamValueStartIndex) = false) :
    stepChar tns pns st c = { st with accumulator := st.accumulator ++ [c] } := by
  simp only [stepChar, h1, h2, hnclose, Bool.false_eq_true, if_false]

/-- Inside a tool whose closing tag has not appeared: whatever the parameter
scan and the special case do, the shape of the result is fixed and the tool
keeps its name and its pending flag. -/
theorem stepChar_inTool_shape (tns pns : List (List Char)) (st : ParserState)
    (tu : ToolUse) (c : Char)
    (h1 : st.currentToolUse = some tu) (h2 : st.currentParamName = none)
    (hnclose : (closeTag tu.name).isSuffixOf
      ((st.accumulator ++ [c]).drop st.currentToolUseStartIndex) = false) :
    ∃ tu' pn' pvs', stepChar tns pns st c =
      { st with
        accumulator := st.accumulator ++ [c]
        currentParamName := pn'
        currentParamValueStartIndex := pvs'
        currentToolUse := some tu' } ∧
      tu'.pending = tu.pending ∧ tu'.name = tu.name := by
  simp only [stepChar, h1, h2, hnclose, Bool.false_eq_true, if_false]
  cases hfind : pns.find? (fun n => (openTag n).isSuffixOf (st.accumulator ++ [c])) with
  | none =>
    dsimp only
    refine ⟨_, none, st.currentParamValueStartIndex, rfl, ?_, ?_⟩ <;>
      (first
        | rfl
        | (split
           · split
             · rfl
             · rfl
           · rfl))
  | some pn =>
    dsimp only
    refine ⟨_, some pn, (st.accumulator ++ [c]).length, rfl, ?_, ?_⟩ <;>
      (first
        | rfl
        | (split
           · split
             · rfl
             · rfl
           · rfl))

/-- One step preserves the invariant. -/
theorem stInv_step (tns pns : List (List Char)) (st : ParserState) (c : Char)
    (h : StInv st) : StInv (stepChar tns pns st c) := by
  obtain ⟨h1, h2, h3, h4⟩ := h
  cases htu : st.currentToolUse with
  | none =>
    cases hfind : tns.find? (fun n => (openTag n).isSuffixOf (st.accumulator ++ [c])) with
    | some tn =>
      rw [stepChar_open_tool tns pns st htu hfind]
      refine ⟨?_, ?_, ?_, ?_⟩
      · intro b hb
        rcases List.mem_append.mp hb with hb | hb
        · exact h1 b hb
        · cases htc : st.currentTextContent with
          | none => rw [htc] at hb; cases hb
          | some t =>
            rw [htc] at hb
            rcases List.mem_singleton.mp hb with rfl
            rfl
      · intro tu htu'
        have h5 : (some { name := tn, params := [], pending := true } : Option ToolUse)
          = some tu := htu'
        cases Option.some_inj.mp h5
        rfl
      · intro t ht
        have h5 : (none : Option TextContent) = some t := ht
        cases h5
      · intro _
        rfl
    | none =>
      rw [stepChar_outside_nofind tns pns st htu hfind]
      refine ⟨h1, ?_, ?_, ?_⟩
      · intro tu htu'
        have h5 : st.currentToolUse = some tu := htu'
        rw [htu] at h5
        cases h5
      · intro t ht
        injection ht with h5
        rw [← h5]
      · intro hsome
        have h5 : st.currentToolUse.isSome = true := hsome
        rw [htu] at h5
        cases h5
  | some tu =>
    cases hpn : st.currentParamName with
    | some pn =>
      cases hcl : (closeTag pn).isSuffixOf
          ((st.accumulator ++ [c]).drop st.currentParamValueStartIndex) with
      | true =>
        rw [stepChar_close_param tns pns st htu hpn hcl]
        refine ⟨h1, ?_, h3, ?_⟩
        · intro tu' htu'
          injection htu' with h5
          rw [← h5]
          exact h2 tu htu
        · intro _
          exact h4 (by rw [htu]; rfl)
      | false =>
        rw [stepChar_inParam_stay tns pns st tu pn c htu hpn hcl]
        exact ⟨h1, h2, h3, h4⟩
    | none =>
      cases hcl : (closeTag tu.name).isSuffixOf
          ((st.accumulator ++ [c]).drop st.currentToolUseStartIndex) with
      | true =>
        rw [stepChar_close_tool tns pns st htu hpn hcl]
        refine ⟨?_, ?_, h3, ?_⟩
        · intro b hb
          rcases List.mem_append.mp hb with hb | hb
          · exact h1 b hb
          · rcases List.mem_singleton.mp hb with rfl
            rfl
        · intro tu' htu'
          have h5 : (none : Option ToolUse) = some tu' := htu'
          cases h5
        · intro hsome
          have h5 : (none : Option ToolUse).isSome = true := hsome
          cases h5
      | false =>
        obtain ⟨tu', pn', pvs', heq, hpend, -⟩ :=
          stepChar_inTool_shape tns pns st tu c htu hpn hcl
        rw [heq]
        refine ⟨h1, ?_, h3, ?_⟩
        · intro tu'' htu''
          have h5 : (some tu' : Option ToolUse) = some tu'' := htu''
          cases Option.some_inj.mp h5
          rw [hpend]
          exact h2 tu htu
        · intro _
          exact h4 (by rw [htu]; rfl)

theorem stInv_foldl (tns pns : List (List Char)) (st : ParserState) (s : List Char)
    (h : StInv st) : StInv (List.foldl (stepChar tns pns) st s) := by
  induction s generalizing st with
  | nil => exact h
  | cons c cs ih => exact ih _ (stInv_step tns pns st c h)

/-- One step only appends to the emitted blocks. -/
theorem blocks_step_mono (tns pns : List (List Char)) (st : ParserState) (c : Char) :
    ∃ e, (stepChar tns pns st c).contentBlocks = st.contentBlocks ++ e := by
  cases htu : st.currentToolUse with
  | none =>
    cases hfind : tns.find? (fun n => (openTag n).isSuffixOf (st.accumulator ++ [c])) with
    | some tn =>
      rw [stepChar_open_tool tns pns st htu hfind]
      exact ⟨_, rfl⟩
    | none =>
      rw [stepChar_outside_nofind tns pns st htu hfind]
      exact ⟨[], by simp⟩
  | some tu =>
    cases hpn : st.currentParamName with
    | some pn =>
      cases hcl : (closeTag pn).isSuffixOf
          ((st.accumulator ++ [c]).drop st.currentParamValueStartIndex) with
      | true =>
        rw [stepChar_close_param tns pns st htu hpn hcl]
        exact ⟨[], by simp⟩
      | false =>
        rw [stepChar_inParam_stay tns pns st tu pn c htu hpn hcl]
        exact ⟨[], by simp⟩
    | none =>
      cases hcl : (closeTag tu.name).isSuffixOf
          ((st.accumulator ++ [c]).drop st.currentToolUseStartIndex) with
      | true =>
        rw [stepChar_close_tool tns pns st htu hpn hcl]
        exact ⟨_, rfl⟩
      | false =>
        obtain ⟨tu', pn', pvs', heq, -, -⟩ :=
          stepChar_inTool_shape tns pns st tu c htu hpn hcl
        rw [heq]
        exact ⟨[], by simp⟩

theorem blocks_foldl_mono (tns pns : List (List Char)) (st : ParserState)
    (s : List Char) :
    ∃ e, (List.foldl (stepChar tns pns) st s).contentBlocks =
      st.contentBlocks ++ e := by
  induction s generalizing st with
  | nil => exact ⟨[], by simp⟩
  | cons c cs ih =>
    obtain ⟨e1, he1⟩ := blocks_step_mono tns pns st c
    obtain ⟨e2, he2⟩ := ih (stepChar tns pns st c)
    exact ⟨e1 ++ e2, by rw [List.foldl_cons, he2, he1, List.append_assoc]⟩

/-- The flush appends only the still-open blocks, which are all pending, and
(under the invariant) at most one of them. -/
theorem finalize_decomp (st : ParserState) :
    ∃ r, finalizeState st = st.contentBlocks ++ r ∧
      (StInv st → (∀ b ∈ r, b.pending = true) ∧ r.length ≤ 1) := by
  cases htu : st.currentToolUse with
  | none =>
    cases htc : st.currentTextContent with
    | none =>
      refine ⟨[], ?_, fun _ => ⟨by simp, by simp⟩⟩
      simp [finalizeState, htu, htc]
    | some t =>
      refine ⟨[ContentBlock.text t], ?_, fun hinv => ⟨?_, by simp⟩⟩
      · simp [finalizeState, htu, htc]
      · intro b hb
        rcases List.mem_singleton.mp hb with rfl
        have := hinv.2.2.1 t htc
        simpa [ContentBlock.pending] using this
  | some tu =>
    cases htc : st.currentTextContent with
    | none =>
      cases hpn : st.currentParamName with
      | none =>
        refine ⟨[ContentBlock.tool tu], ?_, fun hinv => ⟨?_, by simp⟩⟩
        · simp [finalizeState, htu, htc, hpn]
        · intro b hb
          rcases List.mem_singleton.mp hb with rfl
          simpa [ContentBlock.pending] using hinv.2.1 tu htu
      | some pn =>
        refine ⟨[ContentBlock.tool { tu with params := (setParam tu.params pn
            (trimChars (st.accumulator.drop st.currentParamValueStartIndex))) }], ?_,
            fun hinv => ⟨?_, by simp⟩⟩
        · simp [finalizeState, htu, htc, hpn]
        · intro b hb
          rcases List.mem_singleton.mp hb with rfl
          simpa [ContentBlock.pending] using hinv.2.1 tu htu
    | some t =>
      cases hpn : st.currentParamName with
      | none =>
        refine ⟨[ContentBlock.tool tu, ContentBlock.text t], ?_, fun hinv => ?_⟩
        · simp [finalizeState, htu, htc, hpn]
        · exact absurd (htc ▸ hinv.2.2.2 (by rw [htu]; rfl)) (by simp)
      | some pn =>
        refine ⟨[ContentBlock.tool { tu with params := (setParam tu.params pn
            (trimChars (st.accumulator.drop st.currentParamValueStartIndex))) },
            ContentBlock.text t], ?_, fun hinv => ?_⟩
        · simp [finalizeState, htu, htc, hpn]
        · exact absurd (htc ▸ hinv.2.2.2 (by rw [htu]; rfl)) (by simp)

/-! ## Claims about the incremental parser -/

/-- C1: for every tool name `toolA` in the (curated) tool vocabulary and
every parameter name `p1` in the parameter vocabulary, parsing
`"before text <toolA><p1>v1</p1></toolA> after text"` yields exactly three
blocks in order: the closed text block `"before text"` (trimmed, with the
matched opening delimiter stripped), the closed `ToolUse` with
`params = {p1 ↦ v1}`, and a text block `"after text"`. -/
theorem claim_C1_round_trip (tns pns : List (List Char)) (toolA p1 : List Char)
    (htv : goodVocab tns) (hpv : goodVocab pns)
    (hT : toolA ∈ tns) (hP : p1 ∈ pns) :
    parseAssistantMessage tns pns
      ("before text ".data ++ openTag toolA ++ openTag p1 ++ "v1".data ++
        closeTag p1 ++ closeTag toolA ++ " after text".data) =
      [ContentBlock.text ⟨"before text".data, false⟩,
       ContentBlock.tool ⟨toolA, [(p1, "v1".data)], false⟩,
       ContentBlock.text ⟨"after text".data, true⟩] :=
  parse_round_trip tns pns toolA p1 htv hpv hT hP

/-- Witness for C1, at the concrete vocabulary
`tools = [execute_command, write_to_file]`, `params = [command, content]`. -/
theorem claim_C1_round_trip_witness :
    goodVocab ["execute_command".data, "write_to_file".data] ∧
    goodVocab ["command".data, "content".data] ∧
    "execute_command".data ∈ ["execute_command".data, "write_to_file".data] ∧
    "command".data ∈ ["command".data, "content".data] ∧
    parseAssistantMessage ["execute_command".data, "write_to_file".data]
      ["command".data, "content".data]
      ("before text ".data ++ openTag "execute_command".data ++
        openTag "command".data ++ "v1".data ++ closeTag "command".data ++
        closeTag "execute_command".data ++ " after text".data) =
      [ContentBlock.text ⟨"before text".data, false⟩,
       ContentBlock.tool ⟨"execute_command".data,
         [("command".data, "v1".data)], false⟩,
       ContentBlock.text ⟨"after text".data, true⟩] :=
  ⟨by decide, by decide, by decide, by decide,
    claim_C1_round_trip _ _ _ _ (by decide) (by decide) (by decide) (by decide)⟩

/-- C2: monotonic convergence.  The closed (`partial = false`) blocks of
`parse B` are an initial segment of `parse B` itself (everything after them
is pending), and the same initial segment starts `parse (B ++ s)` for every
extension: every closed block reappears unchanged at the same position. -/
theorem claim_C2_monotonic (tns pns : List (List Char)) (B s : List Char) :
    ∃ r₁ r₂,
      parseAssistantMessage tns pns B =
        (parseAssistantMessage tns pns B).filter (fun b => !b.pending) ++ r₁ ∧
      (∀ b ∈ r₁, b.pending = true) ∧
      parseAssistantMessage tns pns (B ++ s) =
        (parseAssistantMessage tns pns B).filter (fun b => !b.pending) ++ r₂ := by
  obtain ⟨r, hr, hprop⟩ := finalize_decomp (List.foldl (stepChar tns pns) startState B)
  have hinv := stInv_foldl tns pns startState B stInv_start
  obtain ⟨hrt, -⟩ := hprop hinv
  have hA := hinv.1
  have hfilter : (parseAssistantMessage tns pns B).filter (fun b => !b.pending) =
      (List.foldl (stepChar tns pns) startState B).contentBlocks := by
    unfold parseAssistantMessage
    rw [hr, List.filter_append,
      List.filter_eq_self.mpr (fun a ha => by simp [hA a ha]),
      List.filter_eq_nil_iff.mpr (fun a ha => by simp [hrt a ha])]
    simp
  obtain ⟨e, he⟩ := blocks_foldl_mono tns pns
    (List.foldl (stepChar tns pns) startState B) s
  obtain ⟨r2, hr2, -⟩ := finalize_decomp
    (List.foldl (stepChar tns pns) (List.foldl (stepChar tns pns) startState B) s)
  refine ⟨r, e ++ r2, ?_, hrt, ?_⟩
  · rw [hfilter]
    unfold parseAssistantMessage
    exact hr
  · rw [hfilter]
    unfold parseAssistantMessage
    rw [List.foldl_append, hr2, he, List.append_assoc]

/-- C3: for the `write_to_file` tool, a `content` payload containing the
literal `</content>` is stored whole (trimmed), not truncated at the first
embedded occurrence, because matching uses the last `</content>` in the
tool span. -/
theorem claim_C3_embedded_content (tns pns : List (List Char))
    (htv : goodVocab tns) (hpv : goodVocab pns)
    (hWT : "write_to_file".data ∈ tns) (hCont : "content".data ∈ pns) :
    parseAssistantMessage tns pns
      "<write_to_file><content>line1\n</content>\nline2</content></write_to_file>".data =
      [ContentBlock.text ⟨[], false⟩,
       ContentBlock.tool ⟨"write_to_file".data,
         [("content".data, "line1\n</content>\nline2".data)], false⟩] :=
  parse_embedded_content tns pns htv hpv hWT hCont

/-- Witness for C3 at the concrete vocabulary. -/
theorem claim_C3_embedded_content_witness :
    goodVocab ["write_to_file".data] ∧ goodVocab ["content".data] ∧
    "write_to_file".data ∈ ["write_to_file".data] ∧
    "content".data ∈ ["content".data] ∧
    parseAssistantMessage ["write_to_file".data] ["content".data]
      "<write_to_file><content>line1\n</content>\nline2</content></write_to_file>".data =
      [ContentBlock.text ⟨[], false⟩,
       ContentBlock.tool ⟨"write_to_file".data,
         [("content".data, "line1\n</content>\nline2".data)], false⟩] :=
  ⟨by decide, by decide, by decide, by decide,
    claim_C3_embedded_content _ _ (by decide) (by decide) (by decide) (by decide)⟩

/-- Counterexample to C4 as stated: at the vocabulary
`tools = [execute_command]`, `params = [command]`, parsing
`"<execute_command><command>v1</command>"` does NOT yield a single block;
an empty closed text block precedes the pending tool use. -/
theorem claim_C4_counterexample :
    parseAssistantMessage ["execute_command".data] ["command".data]
      "<execute_command><command>v1</command>".data =
      [ContentBlock.text ⟨[], false⟩,
       ContentBlock.tool ⟨"execute_command".data,
         [("command".data, "v1".data)], true⟩] ∧
    parseAssistantMessage ["execute_command".data] ["command".data]
      "<execute_command><command>v1</command>".data ≠
      [ContentBlock.tool ⟨"execute_command".data,
        [("command".data, "v1".data)], true⟩] := by
  constructor
  · decide
  · decide

/-- C4 (amended): parsing `"<toolA><p1>v1</p1>"` (no closing tag for
`toolA`) yields exactly two blocks: an empty closed text block (the text
span opened on `<` is stripped back to nothing when the tag completes) and
the open `ToolUse` with `params = {p1 ↦ v1}` and `partial = true`. -/
theorem claim_C4_partial_tail (tns pns : List (List Char)) (toolA p1 : List Char)
    (htv : goodVocab tns) (hpv : goodVocab pns)
    (hT : toolA ∈ tns) (hP : p1 ∈ pns) :
    parseAssistantMessage tns pns
      (openTag toolA ++ openTag p1 ++ "v1".data ++ closeTag p1) =
      [ContentBlock.text ⟨[], false⟩,
       ContentBlock.tool ⟨toolA, [(p1, "v1".data)], true⟩] :=
  parse_partial_tail tns pns toolA p1 htv hpv hT hP

/-- Witness for the amended C4. -/
theorem claim_C4_partial_tail_witness :
    goodVocab ["execute_command".data] ∧ goodVocab ["command".data] ∧
    "execute_command".data ∈ ["execute_command".data] ∧
    "command".data ∈ ["command".data] ∧
    parseAssistantMessage ["execute_command".data] ["command".data]
      (openTag "execute_command".data ++ openTag "command".data ++ "v1".data ++
        closeTag "command".data) =
      [ContentBlock.text ⟨[], false⟩,
       ContentBlock.tool ⟨"execute_command".data,
         [("command".data, "v1".data)], true⟩] :=
  ⟨by decide, by decide, by decide, by decide,
    claim_C4_partial_tail _ _ _ _ (by decide) (by decide) (by decide) (by decide)⟩

/-- C5: in every parse result, every block except possibly the last is
closed, and at most one block is pending — so a pending block, if any, is
the last. -/
theorem claim_C5_single_pending (tns pns : List (List Char)) (msg : List Char) :
    (parseAssistantMessage tns pns msg).countP (fun b => b.pending) ≤ 1 ∧
    ∀ b ∈ (parseAssistantMessage tns pns msg).dropLast, b.pending = false := by
  obtain ⟨r, hr, hprop⟩ := finalize_decomp (List.foldl (stepChar tns pns) startState msg)
  have hinv := stInv_foldl tns pns startState msg stInv_start
  obtain ⟨hrt, hrlen⟩ := hprop hinv
  have hA := hinv.1
  constructor
  · unfold parseAssistantMessage
    rw [hr, List.countP_append]
    have hA0 : (List.foldl (stepChar tns pns) startState msg).contentBlocks.countP
        (fun b => b.pending) = 0 :=
      List.countP_eq_zero.mpr (fun a ha => by simp [hA a ha])
    have hr1 : r.countP (fun b => b.pending) ≤ r.length := List.countP_le_length _
    omega
  · unfold parseAssistantMessage
    rw [hr]
    rcases r with _ | ⟨x, r2⟩
    · intro b hb
      rw [List.append_nil] at hb
      exact hA b ((List.dropLast_sublist _).subset hb)
    · have hr2 : r2 = [] := by
        rw [List.length_cons] at hrlen
        exact List.length_eq_zero.mp (by omega)
      subst hr2
      intro b hb
      rw [List.dropLast_concat] at hb
      exact hA b hb

/-- C6: an opening-tag-shaped substring whose name is not in the tool
vocabulary is ordinary text: `"<notARealTool>hi</notARealTool>"` parses to a
single text block holding the literal string unchanged.  (The parser is a
total function by construction, so no failure mode exists.) -/
theorem claim_C6_unknown_tag (tns pns : List (List Char))
    (htv : goodVocab tns) (hnot : "notARealTool".data ∉ tns) :
    parseAssistantMessage tns pns "<notARealTool>hi</notARealTool>".data =
      [ContentBlock.text ⟨"<notARealTool>hi</notARealTool>".data, true⟩] :=
  parse_unknown_tag tns pns htv hnot

/-- Witness for C6. -/
theorem claim_C6_unknown_tag_witness :
    goodVocab ["execute_command".data] ∧
    "notARealTool".data ∉ ["execute_command".data] ∧
    parseAssistantMessage ["execute_command".data] ["command".data]
      "<notARealTool>hi</notARealTool>".data =
      [ContentBlock.text ⟨"<notARealTool>hi</notARealTool>".data, true⟩] :=
  ⟨by decide, by decide, claim_C6_unknown_tag _ _ (by decide) (by decide)⟩

/-! ## Supporting lemmas for the cache-annotation claim -/

theorem userMsgIndices_append (ms : List Message) (m : Message) :
    userMsgIndices (ms ++ [m]) =
      userMsgIndices ms ++ (if m.role = Role.user then [ms.length] else []) := by
  unfold userMsgIndices
  rw [List.enum_append, List.foldl_append]
  by_cases hm : m.role = Role.user
  · simp [List.enumFrom, hm]
  · simp [List.enumFrom, hm]

theorem userMsgIndices_eq_filter (msgs : List Message) :
    userMsgIndices msgs = (List.range msgs.length).filter (userAt msgs) := by
  induction msgs using List.reverseRecOn with
  | nil => rfl
  | append_singleton ms m ih =>
    rw [userMsgIndices_append, ih]
    rw [show (ms ++ [m]).length = ms.length + 1 by simp, List.range_succ,
      List.filter_append]
    congr 1
    · apply List.filter_congr
      intro j hj
      have hjlt : j < ms.length := List.mem_range.mp hj
      unfold userAt
      rw [List.get?_append hjlt]
    · by_cases hm : m.role = Role.user <;>
        simp [userAt, List.get?_concat_length, hm]

/-- Membership in the last two entries of the index list is exactly equality
with one of the two JS-computed indices. -/
theorem mem_lastTwo_aux (U : List Nat) (i : Nat) :
    (i ∈ U.drop (U.length - 2)) ↔
    (some i = jsIdx U ((U.length : Int) - 1) ∨
     some i = jsIdx U ((U.length : Int) - 2)) := by
  cases hU : U.reverse with
  | nil =>
    have h0 : U = [] := by
      have := congrArg List.reverse hU
      simpa using this
    subst h0
    simp [jsIdx]
  | cons y V =>
    cases hV : V with
    | nil =>
      have h1 : U = [y] := by
        have := congrArg List.reverse hU
        rw [hV] at this
        simpa using this
      subst h1
      simp [jsIdx]
    | cons x W =>
      have h2 : U = W.reverse ++ [x, y] := by
        have := congrArg List.reverse hU
        rw [hV] at this
        simpa using this
      subst h2
      have hlen : (W.reverse ++ [x, y]).length = W.length + 2 := by simp
      rw [hlen]
      have hdrop : (W.reverse ++ [x, y]).drop (W.length + 2 - 2) = [x, y] := by
        rw [show W.length + 2 - 2 = W.length from rfl]
        exact List.drop_left' (by simp)
      rw [hdrop]
      have hj1 : jsIdx (W.reverse ++ [x, y]) ((W.length + 2 : Nat) - 1 : Int) = some y := by
        unfold jsIdx
        rw [if_neg (by omega)]
        rw [show (((W.length + 2 : Nat) : Int) - 1).toNat = W.length + 1 by omega]
        rw [List.get?_append_right (by simp)]
        simp
      have hj2 : jsIdx (W.reverse ++ [x, y]) ((W.length + 2 : Nat) - 2 : Int) = some x := by
        unfold jsIdx
        rw [if_neg (by omega)]
        rw [show (((W.length + 2 : Nat) : Int) - 2).toNat = W.length by omega]
        rw [List.get?_append_right (by simp)]
        simp
      rw [hj1, hj2]
      constructor
      · intro hmem
        rcases List.mem_cons.mp hmem with rfl | hmem
        · right
          rfl
        · rcases List.mem_singleton.mp hmem with rfl
          left
          rfl
      · rintro (hy | hx)
        · have : i = y := Option.some_inj.mp hy
          subst this
          simp
        · have : i = x := Option.some_inj.mp hx
          subst this
          simp

theorem mem_lastTwo_iff (msgs : List Message) (i : Nat) :
    ((i : Int) = lastUserMsgIndex msgs ∨ (i : Int) = secondLastUserMsgIndex msgs) ↔
    (i ∈ (userMsgIndices msgs).drop ((userMsgIndices msgs).length - 2)) := by
  rw [mem_lastTwo_aux (userMsgIndices msgs) i]
  unfold lastUserMsgIndex secondLastUserMsgIndex
  have key : ∀ (k : Int),
      ((i : Int) = (match jsIdx (userMsgIndices msgs) k with
        | some n => (n : Int)
        | none => -1)) ↔
      some i = jsIdx (userMsgIndices msgs) k := by
    intro k
    cases hj : jsIdx (userMsgIndices msgs) k with
    | some n =>
      constructor
      · intro h1
        have h2 : (i : Int) = (n : Int) := h1
        exact congrArg some (by exact_mod_cast h2)
      · intro h1
        have h2 : i = n := Option.some_inj.mp h1
        subst h2
        rfl
    | none =>
      constructor
      · intro h1
        have h2 : (i : Int) = -1 := h1
        omega
      · intro h1
        cases h1
  rw [key (((userMsgIndices msgs).length : Int) - 1),
    key (((userMsgIndices msgs).length : Int) - 2)]

/-! ## Claims about the stream normalizers -/

/-- Counterexample to C7 as stated: with a thinking-enabled model and
`modelMaxTokens = 1000`, the budget is clamped UP to the floor of 1024,
which exceeds 80% of the max-output-token budget (800): the "at most 80%"
half of the claim fails for small `maxTokens`, whatever
`modelMaxThinkingTokens` is (here 50). -/
theorem claim_C7_counterexample :
    (getModelAnthropic
        [("claude-3-7-sonnet-20250219:thinking", ⟨some 16384, true⟩)]
        "claude-3-7-sonnet-20250219"
        ⟨some "claude-3-7-sonnet-20250219:thinking", some 1000, some 50, none⟩).temperature
      = 1 ∧
    (getModelAnthropic
        [("claude-3-7-sonnet-20250219:thinking", ⟨some 16384, true⟩)]
        "claude-3-7-sonnet-20250219"
        ⟨some "claude-3-7-sonnet-20250219:thinking", some 1000, some 50, none⟩).thinkingBudget
      = some 1024 ∧
    ((jsOrNat (some 1000) (jsOrNat (some 16384) 8192) * 8) / 10 : Nat) = 800 ∧
    ¬ ((1024 : Int) ≤ ((800 : Nat) : Int)) := by
  refine ⟨rfl, rfl, rfl, by decide⟩

/-- C7 (amended): whenever reasoning is enabled, `getModel` forces the
temperature to 1.0 and returns a thinking budget of at least 1024 tokens and
at most `max (floor (0.8 * maxTokens)) 1024` — in particular at most
`floor (0.8 * maxTokens)` whenever that floor is itself at least 1024 — for
every value of `modelMaxThinkingTokens`. -/
theorem claim_C7_thinking_budget (models : List (String × ModelInfo))
    (defaultId : String) (opts : AnthropicOptions) (mid : String)
    (entry : String × ModelInfo)
    (hmid : opts.apiModelId = some mid) (hne : ¬ mid = "")
    (hfind : models.find? (fun p => p.1 == mid) = some entry)
    (hth : entry.2.thinking = true) :
    (getModelAnthropic models defaultId opts).temperature = 1 ∧
    ∃ b, (getModelAnthropic models defaultId opts).thinkingBudget = some b ∧
      1024 ≤ b ∧
      b ≤ max (((jsOrNat opts.modelMaxTokens (jsOrNat entry.2.maxTokens 8192) * 8) / 10
        : Nat) : Int) 1024 := by
  have hchar : getModelAnthropic models defaultId opts =
      { id := if mid = "claude-3-7-sonnet-20250219:thinking"
          then "claude-3-7-sonnet-20250219" else mid
        temperature := 1
        maxTokens := jsOrNat opts.modelMaxTokens (jsOrNat entry.2.maxTokens 8192)
        thinkingBudget := some (max (min (opts.modelMaxThinkingTokens.getD
            (((jsOrNat opts.modelMaxTokens (jsOrNat entry.2.maxTokens 8192) * 8) / 10
              : Nat) : Int))
            (((jsOrNat opts.modelMaxTokens (jsOrNat entry.2.maxTokens 8192) * 8) / 10
              : Nat) : Int))
          1024) } := by
    simp only [getModelAnthropic, hmid, hne, if_false, hfind, hth, if_true]
  rw [hchar]
  refine ⟨rfl, _, rfl, le_max_right _ _, ?_⟩
  apply max_le
  · exact (min_le_right _ _).trans (le_max_left _ _)
  · exact le_max_right _ _

/-- Witness for the amended C7 at a concrete configuration. -/
theorem claim_C7_thinking_budget_witness :
    ((⟨some "m1", none, some 50000, none⟩ : AnthropicOptions).apiModelId = some "m1") ∧
    (¬ ("m1" : String) = "") ∧
    ([("m1", (⟨some 16384, true⟩ : ModelInfo))].find? (fun p => p.1 == "m1")
      = some ("m1", ⟨some 16384, true⟩)) ∧
    ((("m1", (⟨some 16384, true⟩ : ModelInfo)) : String × ModelInfo).2.thinking = true) ∧
    ((getModelAnthropic [("m1", ⟨some 16384, true⟩)] "d"
        ⟨some "m1", none, some 50000, none⟩).temperature = 1 ∧
      ∃ b, (getModelAnthropic [("m1", ⟨some 16384, true⟩)] "d"
          ⟨some "m1", none, some 50000, none⟩).thinkingBudget = some b ∧
        1024 ≤ b ∧
        b ≤ max (((jsOrNat none (jsOrNat (some 16384) 8192) * 8) / 10 : Nat) : Int) 1024) :=
  ⟨rfl, by decide, by decide, rfl,
    claim_C7_thinking_budget [("m1", ⟨some 16384, true⟩)] "d"
      ⟨some "m1", none, some 50000, none⟩ "m1" ("m1", ⟨some 16384, true⟩)
      rfl (by decide) (by decide) rfl⟩

/-- C8: for the prompt-caching model family, the request shaping annotates
with the ephemeral cache marker exactly the last and second-to-last
user-role messages (for list-shaped content, only the last part), passing
every other message through unchanged.  `userMsgIndices` is the increasing
list of user-role indices, so the last two entries of it are those two
messages. -/
theorem claim_C8_cache_boundary (msgs : List Message) (i : Nat)
    (h : i < msgs.length) :
    userMsgIndices msgs = (List.range msgs.length).filter (userAt msgs) ∧
    (annotateCacheMessages msgs).length = msgs.length ∧
    (annotateCacheMessages msgs)[i]? =
      some (if i ∈ (userMsgIndices msgs).drop ((userMsgIndices msgs).length - 2)
            then markMessage msgs[i] else msgs[i]) := by
  refine ⟨userMsgIndices_eq_filter msgs, ?_, ?_⟩
  · unfold annotateCacheMessages
    rw [List.length_map, List.enum_length]
  · unfold annotateCacheMessages
    rw [List.getElem?_map, List.getElem?_enum, List.getElem?_eq_getElem h,
      Option.map_some', Option.map_some']
    rw [if_congr (mem_lastTwo_iff msgs i) rfl rfl]

/-- Witness for C8: a five-message history whose user messages sit at
indices 0, 2 and 3; index 2 is second-to-last user and gets marked. -/
theorem claim_C8_cache_boundary_witness :
    (2 < ([⟨Role.user, .str "a"⟩, ⟨Role.assistant, .str "b"⟩, ⟨Role.user, .str "c"⟩,
      ⟨Role.user, .parts [⟨"p", false⟩, ⟨"q", false⟩]⟩,
      ⟨Role.assistant, .str "e"⟩] : List Message).length) ∧
    (userMsgIndices [⟨Role.user, .str "a"⟩, ⟨Role.assistant, .str "b"⟩,
        ⟨Role.user, .str "c"⟩,
        ⟨Role.user, .parts [⟨"p", false⟩, ⟨"q", false⟩]⟩,
        ⟨Role.assistant, .str "e"⟩] =
      (List.range ([⟨Role.user, .str "a"⟩, ⟨Role.assistant, .str "b"⟩,
        ⟨Role.user, .str "c"⟩,
        ⟨Role.user, .parts [⟨"p", false⟩, ⟨"q", false⟩]⟩,
        ⟨Role.assistant, .str "e"⟩] : List Message).length).filter
        (userAt [⟨Role.user, .str "a"⟩, ⟨Role.assistant, .str "b"⟩,
          ⟨Role.user, .str "c"⟩,
          ⟨Role.user, .parts [⟨"p", false⟩, ⟨"q", false⟩]⟩,
          ⟨Role.assistant, .str "e"⟩])) ∧
    (annotateCacheMessages [⟨Role.user, .str "a"⟩, ⟨Role.assistant, .str "b"⟩,
        ⟨Role.user, .str "c"⟩,
        ⟨Role.user, .parts [⟨"p", false⟩, ⟨"q", false⟩]⟩,
        ⟨Role.assistant, .str "e"⟩]).length =
      ([⟨Role.user, .str "a"⟩, ⟨Role.assistant, .str "b"⟩, ⟨Role.user, .str "c"⟩,
        ⟨Role.user, .parts [⟨"p", false⟩, ⟨"q", false⟩]⟩,
        ⟨Role.assistant, .str "e"⟩] : List Message).length := by
  refine ⟨by decide, ?_, ?_⟩
  · exact (claim_C8_cache_boundary _ 2 (by decide)).1
  · exact (claim_C8_cache_boundary _ 2 (by decide)).2.1

/-- C9: with streaming disabled, `createMessage` yields exactly two events:
one text event carrying the single response's message content, then one
usage event — the same event shapes as the streaming path. -/
theorem claim_C9_nonstreaming (streamChunks : List OpenAiStreamChunk)
    (response : ChatResponse) :
    createMessageOpenAi false streamChunks response =
      [ApiStreamChunk.text
        (jsOrStr (response.choices.head?.bind (fun c => c.message.content)) ""),
       ApiStreamChunk.usage
         (jsOrInt (response.usage.bind (fun u => u.prompt_tokens)) 0)
         (jsOrInt (response.usage.bind (fun u => u.completion_tokens)) 0)
         none none] := rfl

/-- C10: usage events never carry a zero cache count: an absent (or
zero-valued) provider cache counter becomes an absent field on the
Anthropic `message_start` event, and the OpenAI usage event carries no
cache fields at all. -/
theorem claim_C10_cache_undefined (u : AnthropicUsage) (usage : Option OpenAiUsage) :
    (u.cache_creation_input_tokens = none →
      cacheWriteOf (anthropicMessageStartUsage u) = none) ∧
    (u.cache_read_input_tokens = none →
      cacheReadOf (anthropicMessageStartUsage u) = none) ∧
    cacheWriteOf (anthropicMessageStartUsage u) ≠ some 0 ∧
    cacheReadOf (anthropicMessageStartUsage u) ≠ some 0 ∧
    cacheWriteOf (processUsageMetrics usage) = none ∧
    cacheReadOf (processUsageMetrics usage) = none := by
  refine ⟨?_, ?_, ?_, ?_, rfl, rfl⟩
  · intro h
    simp [anthropicMessageStartUsage, cacheWriteOf, jsOrUndef, h]
  · intro h
    simp [anthropicMessageStartUsage, cacheReadOf, jsOrUndef, h]
  · simp only [anthropicMessageStartUsage, cacheWriteOf, jsOrUndef]
    cases hcw : u.cache_creation_input_tokens with
    | none => simp
    | some v =>
      by_cases hv : v = 0
      · simp [hv]
      · simp [hv]
  · simp only [anthropicMessageStartUsage, cacheReadOf, jsOrUndef]
    cases hcr : u.cache_read_input_tokens with
    | none => simp
    | some v =>
      by_cases hv : v = 0
      · simp [hv]
      · simp [hv]

/-- Witness for C10 at a concrete usage record (`cache write` absent,
`cache read` reported as 0 by the provider). -/
theorem claim_C10_cache_undefined_witness :
    ((⟨some 10, some 5, none, some 0⟩ : AnthropicUsage).cache_creation_input_tokens
      = none) ∧
    cacheWriteOf (anthropicMessageStartUsage ⟨some 10, some 5, none, some 0⟩) = none ∧
    cacheReadOf (anthropicMessageStartUsage ⟨some 10, some 5, none, some 0⟩) ≠ some 0 ∧
    cacheWriteOf (processUsageMetrics (some ⟨some 10, some 5⟩)) = none :=
  ⟨rfl,
   (claim_C10_cache_undefined ⟨some 10, some 5, none, some 0⟩ (some ⟨some 10, some 5⟩)).1 rfl,
   (claim_C10_cache_undefined ⟨some 10, some 5, none, some 0⟩ (some ⟨some 10, some 5⟩)).2.2.2.1,
   (claim_C10_cache_undefined ⟨some 10, some 5, none, some 0⟩ (some ⟨some 10, some 5⟩)).2.2.2.2.1⟩

end IIVD
